import Mathlib

/-!
Verification of the version-derivation engine of `universi` (`universi/routing.py`).

The embedding models FastAPI routes as values carrying an explicit address
(a natural number standing for the Python object identity), so that `deepcopy`
(fresh addresses, same values) and in-place mutation (same address, new value)
keep the meaning they have in the source.  The route-table transformer
(`_EndpointTransformer`), the route matcher (`_get_routes`), the per-instruction
replay (`_apply_endpoint_changes_to_router`), the attribute updater
(`_apply_endpoint_had_instruction`) and the annotation engine
(`_AnnotationTransformer`, `_generate_signature`) are translated function by
function below.  Python sets of HTTP methods are modelled as lists compared up
to membership.
-/

set_option maxRecDepth 16384

deriving instance DecidableEq for Except

namespace Universi

/-- `_DELETED_ROUTE_TAG` of `routing.py`: the tag appended to `route.tags`
to mark a route as logically deleted. -/
def deletedRouteTag : String := "_UNIVERSI_DELETED_ROUTE"

/-- A route handler (`route.endpoint`).  Python identifies it by the function
object; the embedding keeps its `__name__` (used by `_get_routes`) and whether
it is an async callable (checked by `_add_data_migrations_to_route`). -/
structure Endpoint where
  name : String
  isAsync : Bool
deriving DecidableEq, Repr

/-- A FastAPI `APIRoute` as the transformer sees it: path, HTTP method set
(modelled as a list up to membership), handler, free-form tags (the deleted
marker lives there) and the remaining mutable attributes (description,
deprecated flag, ...) modelled as an association list, separate from the
structural fields. -/
structure Route where
  path : String
  methods : List String
  endpoint : Endpoint
  tags : List String
  attrs : List (String × String)
deriving DecidableEq, Repr

/-- `_DELETED_ROUTE_TAG in route.tags`. -/
def Route.isDeleted (r : Route) : Bool := r.tags.contains deletedRouteTag

/-- `route.tags.append(_DELETED_ROUTE_TAG)`. -/
def Route.addDeletedTag (r : Route) : Route := { r with tags := r.tags ++ [deletedRouteTag] }

/-- `route.tags.remove(_DELETED_ROUTE_TAG)`: removes the first occurrence. -/
def Route.removeDeletedTag (r : Route) : Route := { r with tags := r.tags.erase deletedRouteTag }

/-- `getattr(route, attr_name)` for the free-form attributes. -/
def Route.getAttr (r : Route) (n : String) : String := (r.attrs.lookup n).getD ""

/-- Replace the binding of `n` in an association list (append it when absent). -/
def updateAssoc : List (String × String) → String → String → List (String × String)
  | [], n, v => [(n, v)]
  | (k, w) :: rest, n, v => if k = n then (n, v) :: rest else (k, w) :: updateAssoc rest n v

/-- `setattr(route, attr_name, attr)` for the free-form attributes. -/
def Route.setAttr (r : Route) (n v : String) : Route := { r with attrs := updateAssoc r.attrs n v }

/-- Set equality of two HTTP method sets (Python compares `set`s). -/
def sameMethodSet (m1 m2 : List String) : Bool :=
  m1.all (m2.contains ·) && m2.all (m1.contains ·)

/-- Structural route equality of the web framework (starlette `Route.__eq__`):
it compares path, endpoint and method set, NOT tags or other attributes.  It is
the equality used by `routes_that_never_existed.remove(...)` in `transform`. -/
def routeEq (r1 r2 : Route) : Bool :=
  r1.path == r2.path && r1.endpoint == r2.endpoint && sameMethodSet r1.methods r2.methods

/-- One endpoint-altering instruction
(`universi.structure.endpoints`; the four variants dispatched on in
`_apply_endpoint_changes_to_router`).  Each carries the target endpoint
identity: path, declared method set, optional disambiguating function name.
`had` carries the declared (non-`Sentinel`) attributes in dataclass field
order; `was` carries the old handler returned by `get_old_endpoint()`. -/
inductive Instr where
  | didntExist (path : String) (methods : List String) (funcName : Option String)
  | existed (path : String) (methods : List String) (funcName : Option String)
  | had (path : String) (methods : List String) (funcName : Option String)
      (hattrs : List (String × String))
  | was (path : String) (methods : List String) (funcName : Option String) (oldEndpoint : Endpoint)
deriving DecidableEq, Repr

/-- `instruction.endpoint_path`. -/
def Instr.epPath : Instr → String
  | .didntExist p _ _ => p
  | .existed p _ _ => p
  | .had p _ _ _ => p
  | .was p _ _ _ => p

/-- `instruction.endpoint_methods`. -/
def Instr.epMethods : Instr → List String
  | .didntExist _ m _ => m
  | .existed _ m _ => m
  | .had _ m _ _ => m
  | .was _ m _ _ => m

/-- `instruction.endpoint_func_name`. -/
def Instr.epFuncName : Instr → Option String
  | .didntExist _ _ f => f
  | .existed _ _ f => f
  | .had _ _ f _ => f
  | .was _ _ f _ => f

/-- A `VersionChange` class: its `__name__` and its
`alter_endpoint_instructions`. -/
structure VersionChange where
  name : String
  instructions : List Instr
deriving DecidableEq, Repr

/-- Modelled from the spec (the `Version` class of `universi.structure.versions`
is not under src/): an ordered point in time (its date key modelled as a `Nat`)
carrying the version changes introduced at that version boundary. -/
structure Version where
  value : Nat
  changes : List VersionChange
deriving DecidableEq, Repr

/-- The fatal errors of the engine (`RouterGenerationError` raised at the
various points of `routing.py`), with the identifying payload each message
interpolates. -/
inductive Err where
  | alreadyDeleted (methodUnion : List String) (path : String) (changeName : String)
      (funcNames : List String)
  | alreadyExisted (methodUnion : List String) (path : String) (changeName : String)
      (funcNames : List String)
  | sameRoutes (methods : List String) (path : String) (changeName : String)
      (funcNames : List String)
  | vacuousAttr (attrName : String) (path : String) (changeName : String)
  | notAsync
  | unappliedMethods (methods : List String) (path : String) (changeName : String)
  | neverRestored (funcNames : List String)
  | misplacedType (conceptName : String) (definedIn : List String)
deriving DecidableEq, Repr

/-- The matching predicate of `_get_routes`: equal path, the route's whole
method set contained in the instruction's declared set, the handler name equal
to the disambiguating name when one is given, and the deletion marker equal to
the one searched for. -/
def routeMatches (r : Route) (path : String) (methods : List String) (funcName : Option String)
    (isDeleted : Bool) : Bool :=
  r.path == path
    && r.methods.all (methods.contains ·)
    && (match funcName with
        | none => true
        | some f => r.endpoint.name == f)
    && (r.isDeleted == isDeleted)

/-- `_get_routes` over an addressed route list. -/
def getRoutes (router : List (Nat × Route)) (path : String) (methods : List String)
    (funcName : Option String) (isDeleted : Bool) : List (Nat × Route) :=
  router.filter (fun ar => routeMatches ar.2 path methods funcName isDeleted)

/-- Working state of `_EndpointTransformer` during replay: the current router
(addressed routes) and `routes_that_never_existed` (held by framework equality,
i.e. as route values). -/
structure ApplyState where
  router : List (Nat × Route)
  neverExisted : List Route
deriving DecidableEq, Repr

/-- Mutate every route matched by `_get_routes` in place (same address, updated
value), leaving the others untouched. -/
def updateMatched (router : List (Nat × Route)) (path : String) (methods : List String)
    (funcName : Option String) (isDeleted : Bool) (f : Route → Route) : List (Nat × Route) :=
  router.map (fun ar =>
    if routeMatches ar.2 path methods funcName isDeleted then (ar.1, f ar.2) else ar)

/-- `set(route.methods)` union over the matched routes
(`methods_to_which_we_applied_changes`); a flat list, read up to membership. -/
def methodsUnion (routes : List (Nat × Route)) : List String :=
  routes.flatMap (fun ar => ar.2.methods)

/-- `_EndpointInfo` equality: equal path and equal method frozenset. -/
def sameEndpointInfo (r1 r2 : Route) : Bool :=
  r1.path == r2.path && sameMethodSet r1.methods r2.methods

/-- `_validate_no_repetitions_in_routes`: some two routes in the list share
path and method set. -/
def hasRepetitions : List Route → Bool
  | [] => false
  | r :: rest => rest.any (fun x => sameEndpointInfo r x) || hasRepetitions rest

/-- `_apply_endpoint_had_instruction` on one route: walk the declared
attributes in field order; raise naming the attribute as soon as the route's
current value already equals the declared value, otherwise overwrite it. -/
def applyHadAttrs (changeName : String) (hattrs : List (String × String)) (r : Route) :
    Except Err Route :=
  match hattrs with
  | [] => .ok r
  | (n, v) :: rest =>
    if r.getAttr n == v then .error (.vacuousAttr n r.path changeName)
    else applyHadAttrs changeName rest (r.setAttr n v)

/-- The `EndpointHadInstruction` loop of `_apply_endpoint_changes_to_router`:
apply the attribute changes to each matched route in order, aborting at the
first vacuous attribute. -/
def applyHadToRouter (changeName : String) (hattrs : List (String × String)) (path : String)
    (methods : List String) (funcName : Option String) :
    List (Nat × Route) → Except Err (List (Nat × Route))
  | [] => .ok []
  | ar :: rest =>
    if routeMatches ar.2 path methods funcName false then
      match applyHadAttrs changeName hattrs ar.2 with
      | .error e => .error e
      | .ok r' =>
        match applyHadToRouter changeName hattrs path methods funcName rest with
        | .error e => .error e
        | .ok rest' => .ok ((ar.1, r') :: rest')
    else
      match applyHadToRouter changeName hattrs path methods funcName rest with
      | .error e => .error e
      | .ok rest' => .ok (ar :: rest')

/-- One iteration of the instruction loop of
`_apply_endpoint_changes_to_router`, including the final
`methods_we_should_have_applied_changes_to - methods_to_which_we_applied_changes`
check. -/
def applyInstr (changeName : String) (st : ApplyState) (instr : Instr) : Except Err ApplyState :=
  match instr with
  | .didntExist path methods funcName =>
    let originalRoutes := getRoutes st.router path methods funcName false
    let deletedRoutes := getRoutes st.router path methods funcName true
    if deletedRoutes.isEmpty then
      let affected := methodsUnion originalRoutes
      let router := updateMatched st.router path methods funcName false Route.addDeletedTag
      let diff := methods.filter (fun m => !affected.contains m)
      if diff.isEmpty then .ok { st with router := router }
      else .error (.unappliedMethods diff path changeName)
    else
      .error (.alreadyDeleted (methodsUnion deletedRoutes) path changeName
        (deletedRoutes.map (fun ar => ar.2.endpoint.name)))
  | .existed path methods funcName =>
    let originalRoutes := getRoutes st.router path methods funcName false
    if originalRoutes.isEmpty then
      let deletedRoutes := getRoutes st.router path methods funcName true
      if hasRepetitions (deletedRoutes.map (·.2)) then
        .error (.sameRoutes methods path changeName
          (deletedRoutes.map (fun ar => ar.2.endpoint.name)))
      else
        let affected := methodsUnion deletedRoutes
        let router := updateMatched st.router path methods funcName true Route.removeDeletedTag
        let ne := deletedRoutes.foldl
          (fun ne ar => ne.eraseP (fun x => routeEq x ar.2.removeDeletedTag)) st.neverExisted
        let diff := methods.filter (fun m => !affected.contains m)
        if diff.isEmpty then .ok { router := router, neverExisted := ne }
        else .error (.unappliedMethods diff path changeName)
    else
      .error (.alreadyExisted (methodsUnion originalRoutes) path changeName
        (originalRoutes.map (fun ar => ar.2.endpoint.name)))
  | .had path methods funcName hattrs =>
    let originalRoutes := getRoutes st.router path methods funcName false
    match applyHadToRouter changeName hattrs path methods funcName st.router with
    | .error e => .error e
    | .ok router =>
      let affected := methodsUnion originalRoutes
      let diff := methods.filter (fun m => !affected.contains m)
      if diff.isEmpty then .ok { st with router := router }
      else .error (.unappliedMethods diff path changeName)
  | .was path methods funcName oldEndpoint =>
    let originalRoutes := getRoutes st.router path methods funcName false
    if originalRoutes.isEmpty || oldEndpoint.isAsync then
      let affected := methodsUnion originalRoutes
      let router := updateMatched st.router path methods funcName false
        (fun r => { r with endpoint := oldEndpoint })
      let diff := methods.filter (fun m => !affected.contains m)
      if diff.isEmpty then .ok { st with router := router }
      else .error (.unappliedMethods diff path changeName)
    else .error .notAsync

/-- All instructions of one `VersionChange`, in order. -/
def applyChange (st : ApplyState) (vc : VersionChange) : Except Err ApplyState :=
  vc.instructions.foldlM (applyInstr vc.name) st

/-- `_apply_endpoint_changes_to_router`: all changes of one version, in order. -/
def applyVersion (st : ApplyState) (v : Version) : Except Err ApplyState :=
  v.changes.foldlM applyChange st

/-- Assign consecutive fresh addresses to a list of route values. -/
def addrRoutes (nextAddr : Nat) : List Route → List (Nat × Route)
  | [] => []
  | r :: rest => (nextAddr, r) :: addrRoutes (nextAddr + 1) rest

/-- `deepcopy(router)`: same route values at entirely fresh addresses. -/
def copyRouter (nextAddr : Nat) (router : List (Nat × Route)) : List (Nat × Route) :=
  addrRoutes nextAddr (router.map (·.2))

/-- The list-comprehension filter of `transform` removing routes whose tags
contain the deleted marker from a recorded table. -/
def filterDeleted (router : List (Nat × Route)) : List (Nat × Route) :=
  router.filter (fun ar => !ar.2.isDeleted)

/-- The main loop of `_EndpointTransformer.transform` (run with
`latest_schemas_module = None`, so without annotation migration): for each
version, record the current router, deep-copy it, apply the version's changes
to the copy, and strip the deleted routes from the recorded table.  Returns the
recorded tables and the final `routes_that_never_existed`. -/
def transformGo (router : List (Nat × Route)) (nextAddr : Nat) (ne : List Route) :
    List Version → List (Nat × List (Nat × Route)) →
      Except Err (List (Nat × List (Nat × Route)) × List Route)
  | [], acc => .ok (acc, ne)
  | v :: rest, acc =>
    let copy := copyRouter nextAddr router
    match applyVersion { router := copy, neverExisted := ne } v with
    | .error e => .error e
    | .ok st =>
      transformGo st.router (nextAddr + router.length) st.neverExisted rest
        (acc ++ [(v.value, filterDeleted router)])

/-- `_EndpointTransformer.transform`: the loop above, then the check that every
route initially marked with the deleted tag (the decorator-marked
`routes_that_never_existed`) was restored by some older version. -/
def transform (routes : List Route) (versions : List Version) :
    Except Err (List (Nat × List (Nat × Route))) :=
  let router := addrRoutes 0 routes
  let ne := routes.filter Route.isDeleted
  match transformGo router routes.length ne versions [] with
  | .error e => .error e
  | .ok (tables, neFinal) =>
    if neFinal.isEmpty then .ok tables
    else .error (.neverRestored (neFinal.map (fun r => r.endpoint.name)))

/-! ### Basic lemmas about the matcher and the per-route updaters -/

theorem lookup_updateAssoc_ne (l : List (String × String)) (n n' v : String) (h : n' ≠ n) :
    (updateAssoc l n v).lookup n' = l.lookup n' := by
  induction l with
  | nil => simp [updateAssoc, List.lookup, beq_eq_false_iff_ne.mpr h]
  | cons kv rest ih =>
    obtain ⟨k, w⟩ := kv
    by_cases hk : k = n
    · subst hk
      simp only [updateAssoc, if_pos rfl, List.lookup, beq_eq_false_iff_ne.mpr h]
    · simp only [updateAssoc, if_neg hk, List.lookup]
      by_cases hk' : n' = k
      · simp [hk']
      · simp only [beq_eq_false_iff_ne.mpr hk', ih]

theorem getAttr_setAttr_ne (r : Route) (n n' v : String) (h : n' ≠ n) :
    (r.setAttr n v).getAttr n' = r.getAttr n' := by
  simp [Route.getAttr, Route.setAttr, lookup_updateAssoc_ne _ _ _ _ h]

theorem path_setAttr (r : Route) (n v : String) : (r.setAttr n v).path = r.path := rfl

theorem mem_getRoutes {router : List (Nat × Route)} {path : String} {methods : List String}
    {funcName : Option String} {isDeleted : Bool} {ar : Nat × Route} :
    ar ∈ getRoutes router path methods funcName isDeleted ↔
      ar ∈ router ∧ routeMatches ar.2 path methods funcName isDeleted = true := by
  simp [getRoutes, List.mem_filter]

theorem routeMatches_iff {r : Route} {path : String} {methods : List String}
    {funcName : Option String} {isDeleted : Bool} :
    routeMatches r path methods funcName isDeleted = true ↔
      r.path = path ∧ (∀ m ∈ r.methods, m ∈ methods) ∧
      (∀ f, funcName = some f → r.endpoint.name = f) ∧ r.isDeleted = isDeleted := by
  unfold routeMatches
  cases funcName with
  | none => simp [List.all_eq_true, and_assoc]
  | some f => simp [List.all_eq_true, and_assoc]

/-! ### Concrete fixtures used by the witnesses below -/

/-- A concrete async handler. -/
def exEndpoint : Endpoint := { name := "handler", isAsync := true }

/-- A concrete active route. -/
def exRoute : Route :=
  { path := "/users", methods := ["GET"], endpoint := exEndpoint, tags := [], attrs := [] }

/-- The same route already carrying the deleted marker. -/
def exDeletedRoute : Route := { exRoute with tags := [deletedRouteTag] }

/-- **C5.** Ambiguous double-delete: replaying a didn't-exist-until instruction
while some route matching its endpoint identity is already marked deleted in
the working table fails with the ambiguous-double-delete error
(`"was already deleted in a newer version"`), and no state (hence no further
deletion mark) escapes the instruction. -/
theorem didntExist_ambiguous_double_delete (changeName : String) (st : ApplyState)
    (path : String) (methods : List String) (funcName : Option String)
    (h : getRoutes st.router path methods funcName true ≠ []) :
    applyInstr changeName st (.didntExist path methods funcName) =
      .error (.alreadyDeleted (methodsUnion (getRoutes st.router path methods funcName true))
        path changeName
        ((getRoutes st.router path methods funcName true).map (fun ar => ar.2.endpoint.name))) := by
  simp only [applyInstr]
  rw [if_neg (by simp [List.isEmpty_iff, h])]

/-- Witness for the double-delete theorem at a concrete state. -/
theorem didntExist_ambiguous_double_delete_witness :
    getRoutes [(0, exDeletedRoute)] "/users" ["GET"] none true ≠ [] ∧
      applyInstr "ChangeA" { router := [(0, exDeletedRoute)], neverExisted := [] }
          (.didntExist "/users" ["GET"] none) =
        .error (.alreadyDeleted
          (methodsUnion (getRoutes [(0, exDeletedRoute)] "/users" ["GET"] none true))
          "/users" "ChangeA"
          ((getRoutes [(0, exDeletedRoute)] "/users" ["GET"] none true).map
            (fun ar => ar.2.endpoint.name))) :=
  ⟨by decide,
   didntExist_ambiguous_double_delete "ChangeA"
     { router := [(0, exDeletedRoute)], neverExisted := [] } "/users" ["GET"] none (by decide)⟩

/-- **C6.** Vacuous attribute-change: replaying an attribute-change instruction
against a route either (a) finds every declared attribute different from the
route's current value and overwrites them all, or (b) finds some declared
attribute already equal to the route's current value and fails with the
vacuous-instruction error naming such an attribute.  The declared attribute
names are the (distinct) dataclass fields of the instruction. -/
theorem had_vacuous_attr_spec (changeName : String) (hattrs : List (String × String)) (r : Route)
    (hnd : (hattrs.map Prod.fst).Nodup) :
    ((∀ nv ∈ hattrs, r.getAttr nv.1 ≠ nv.2) →
        applyHadAttrs changeName hattrs r =
          .ok (hattrs.foldl (fun cur nv => cur.setAttr nv.1 nv.2) r)) ∧
    ((∃ nv ∈ hattrs, r.getAttr nv.1 = nv.2) →
        ∃ n v, (n, v) ∈ hattrs ∧ r.getAttr n = v ∧
          applyHadAttrs changeName hattrs r = .error (.vacuousAttr n r.path changeName)) := by
  induction hattrs generalizing r with
  | nil =>
    refine ⟨fun _ => rfl, fun hex => ?_⟩
    obtain ⟨nv, hmem, _⟩ := hex
    cases hmem
  | cons nv rest ih =>
    obtain ⟨n, v⟩ := nv
    have hnd' : (rest.map Prod.fst).Nodup := (List.nodup_cons.mp hnd).2
    have hnmem : n ∉ rest.map Prod.fst := (List.nodup_cons.mp hnd).1
    constructor
    · intro hall
      have hne : ¬ (r.getAttr n == v) = true := by
        simpa using hall (n, v) (List.mem_cons_self _ _)
      have hrec : ∀ nv' ∈ rest, (r.setAttr n v).getAttr nv'.1 ≠ nv'.2 := by
        intro nv' hmem
        have hne' : nv'.1 ≠ n := by
          intro heq
          exact hnmem (heq ▸ List.mem_map_of_mem Prod.fst hmem)
        rw [getAttr_setAttr_ne _ _ _ _ hne']
        exact hall nv' (List.mem_cons_of_mem _ hmem)
      simp only [applyHadAttrs, if_neg hne]
      exact (ih (r.setAttr n v) hnd').1 hrec
    · intro hex
      by_cases hv : (r.getAttr n == v) = true
      · refine ⟨n, v, List.mem_cons_self _ _, by simpa using hv, ?_⟩
        simp only [applyHadAttrs, if_pos hv]
      · have hex' : ∃ nv' ∈ rest, (r.setAttr n v).getAttr nv'.1 = nv'.2 := by
          obtain ⟨nv', hmem, heq⟩ := hex
          rcases List.mem_cons.mp hmem with hh | ht
          · exact absurd (by simp [hh.symm ▸ heq] : (r.getAttr n == v) = true) hv
          · have hne' : nv'.1 ≠ n := by
              intro heqn
              exact hnmem (heqn ▸ List.mem_map_of_mem Prod.fst ht)
            exact ⟨nv', ht, by rw [getAttr_setAttr_ne _ _ _ _ hne']; exact heq⟩
        obtain ⟨n', v', hmem', heq', herr⟩ := (ih (r.setAttr n v) hnd').2 hex'
        have hne' : n' ≠ n := by
          intro heqn
          exact hnmem (heqn ▸ List.mem_map_of_mem Prod.fst hmem')
        refine ⟨n', v', List.mem_cons_of_mem _ hmem', ?_, ?_⟩
        · rw [← getAttr_setAttr_ne r n n' v hne']
          exact heq'
        · simp only [applyHadAttrs, if_neg hv]
          exact herr

/-- Witness for the attribute-change theorem: a route whose `deprecated`
attribute already equals the declared value triggers the error naming it, while
a differing `description` would have been overwritten. -/
theorem had_vacuous_attr_spec_witness :
    ((([("deprecated", "True")] : List (String × String)).map Prod.fst).Nodup) ∧
      (∃ n v, (n, v) ∈ ([("deprecated", "True")] : List (String × String)) ∧
        ({ exRoute with attrs := [("deprecated", "True")] } : Route).getAttr n = v ∧
        applyHadAttrs "ChangeB" [("deprecated", "True")]
            { exRoute with attrs := [("deprecated", "True")] } =
          .error (.vacuousAttr n
            ({ exRoute with attrs := [("deprecated", "True")] } : Route).path "ChangeB")) :=
  ⟨by decide,
   (had_vacuous_attr_spec "ChangeB" [("deprecated", "True")]
      { exRoute with attrs := [("deprecated", "True")] } (by decide)).2
     ⟨("deprecated", "True"), by decide, by decide⟩⟩

/-! ### Method accounting and the frame property of the matcher -/

theorem routeMatches_false_of_method {r : Route} {methods : List String}
    (h : ∃ m ∈ r.methods, m ∉ methods) (path : String) (funcName : Option String)
    (isDeleted : Bool) : routeMatches r path methods funcName isDeleted = false := by
  rw [Bool.eq_false_iff]
  intro htrue
  obtain ⟨_, hsub, _, _⟩ := routeMatches_iff.mp htrue
  obtain ⟨m, hm, hnot⟩ := h
  exact hnot (hsub m hm)

theorem mem_updateMatched_of_not_matches {router : List (Nat × Route)} {path : String}
    {methods : List String} {funcName : Option String} {isDeleted : Bool} {f : Route → Route}
    {ar : Nat × Route} (hmem : ar ∈ router)
    (h : routeMatches ar.2 path methods funcName isDeleted = false) :
    ar ∈ updateMatched router path methods funcName isDeleted f := by
  have hmap := List.mem_map_of_mem
    (fun ar : Nat × Route =>
      if routeMatches ar.2 path methods funcName isDeleted then (ar.1, f ar.2) else ar) hmem
  simpa [updateMatched, h] using hmap

theorem mem_applyHadToRouter_of_not_matches {changeName : String}
    {hattrs : List (String × String)} {path : String} {methods : List String}
    {funcName : Option String} {router router' : List (Nat × Route)}
    (hok : applyHadToRouter changeName hattrs path methods funcName router = .ok router')
    {ar : Nat × Route} (hmem : ar ∈ router)
    (h : routeMatches ar.2 path methods funcName false = false) : ar ∈ router' := by
  induction router generalizing router' with
  | nil => cases hmem
  | cons hd tl ih =>
    by_cases hm : routeMatches hd.2 path methods funcName false = true
    · simp only [applyHadToRouter, if_pos hm] at hok
      cases happ : applyHadAttrs changeName hattrs hd.2 with
      | error e => rw [happ] at hok; cases hok
      | ok r' =>
        rw [happ] at hok
        cases hrest : applyHadToRouter changeName hattrs path methods funcName tl with
        | error e => rw [hrest] at hok; cases hok
        | ok tl' =>
          rw [hrest] at hok
          injection hok with h1
          subst h1
          rcases List.mem_cons.mp hmem with h2 | h2
          · exact absurd (h2 ▸ h) (by simp [hm])
          · exact List.mem_cons_of_mem _ (ih hrest h2)
    · simp only [applyHadToRouter, if_neg hm] at hok
      cases hrest : applyHadToRouter changeName hattrs path methods funcName tl with
      | error e => rw [hrest] at hok; cases hok
      | ok tl' =>
        rw [hrest] at hok
        injection hok with h1
        subst h1
        rcases List.mem_cons.mp hmem with h2 | h2
        · exact h2 ▸ List.mem_cons_self _ _
        · exact List.mem_cons_of_mem _ (ih hrest h2)

theorem methodsUnion_getRoutes_subset {router : List (Nat × Route)} {path : String}
    {methods : List String} {funcName : Option String} {isDeleted : Bool} {m : String}
    (h : m ∈ methodsUnion (getRoutes router path methods funcName isDeleted)) : m ∈ methods := by
  obtain ⟨ar, hmem, hm⟩ := List.mem_flatMap.mp h
  exact (routeMatches_iff.mp (mem_getRoutes.mp hmem).2).2.1 m hm

theorem applyInstr_preserves_unmatched {changeName : String} {st : ApplyState} {instr : Instr}
    {st' : ApplyState} (hok : applyInstr changeName st instr = .ok st')
    {ar : Nat × Route} (hmem : ar ∈ st.router)
    (h : ∃ m ∈ ar.2.methods, m ∉ instr.epMethods) : ar ∈ st'.router := by
  cases instr with
  | didntExist path methods funcName =>
    simp only [Instr.epMethods] at h
    have hf := routeMatches_false_of_method (r := ar.2) h path funcName
    simp only [applyInstr] at hok
    split at hok
    · split at hok
      · injection hok with h1
        subst h1
        exact mem_updateMatched_of_not_matches hmem (hf false)
      · cases hok
    · cases hok
  | existed path methods funcName =>
    simp only [Instr.epMethods] at h
    have hf := routeMatches_false_of_method (r := ar.2) h path funcName
    simp only [applyInstr] at hok
    split at hok
    · split at hok
      · cases hok
      · split at hok
        · injection hok with h1
          subst h1
          exact mem_updateMatched_of_not_matches hmem (hf true)
        · cases hok
    · cases hok
  | had path methods funcName hattrs =>
    simp only [Instr.epMethods] at h
    have hf := routeMatches_false_of_method (r := ar.2) h path funcName
    simp only [applyInstr] at hok
    split at hok
    · cases hok
    · rename_i router heq
      split at hok
      · injection hok with h1
        subst h1
        exact mem_applyHadToRouter_of_not_matches heq hmem (hf false)
      · cases hok
  | was path methods funcName oldEndpoint =>
    simp only [Instr.epMethods] at h
    have hf := routeMatches_false_of_method (r := ar.2) h path funcName
    simp only [applyInstr] at hok
    split at hok
    · split at hok
      · injection hok with h1
        subst h1
        show ar ∈ updateMatched st.router path methods funcName false
          (fun r => { r with endpoint := oldEndpoint })
        exact mem_updateMatched_of_not_matches hmem (hf false)
      · cases hok
    · cases hok

/-- **C10.** The matcher (`_get_routes`): a route is selected for an
instruction exactly when its path equals the instruction's path, its whole
HTTP-method set is contained in the declared method set, the handler name
equals the optional disambiguating function name, and its deletion marker
equals the one searched for; methods of matched routes never leave the
declared set; and a route sharing only some of its methods with the declared
set survives any successfully applied instruction unchanged. -/
theorem getRoutes_matching_spec :
    (∀ (router : List (Nat × Route)) (path : String) (methods : List String)
        (funcName : Option String) (isDeleted : Bool) (ar : Nat × Route),
      ar ∈ getRoutes router path methods funcName isDeleted ↔
        ar ∈ router ∧ ar.2.path = path ∧ (∀ m ∈ ar.2.methods, m ∈ methods) ∧
          (∀ f, funcName = some f → ar.2.endpoint.name = f) ∧ ar.2.isDeleted = isDeleted)
    ∧ (∀ (router : List (Nat × Route)) (path : String) (methods : List String)
        (funcName : Option String) (isDeleted : Bool) (m : String),
        m ∈ methodsUnion (getRoutes router path methods funcName isDeleted) → m ∈ methods)
    ∧ (∀ (changeName : String) (st : ApplyState) (instr : Instr) (st' : ApplyState),
        applyInstr changeName st instr = .ok st' →
        ∀ ar ∈ st.router, (∃ m ∈ ar.2.methods, m ∉ instr.epMethods) → ar ∈ st'.router) := by
  refine ⟨?_, ?_, ?_⟩
  · intro router path methods funcName isDeleted ar
    rw [mem_getRoutes, routeMatches_iff]
  · intro router path methods funcName isDeleted m hm
    exact methodsUnion_getRoutes_subset hm
  · intro changeName st instr st' hok ar hmem hex
    exact applyInstr_preserves_unmatched hok hmem hex

/-- A second concrete route on a different path, used by witnesses. -/
def exOtherRoute : Route :=
  { path := "/orders", methods := ["POST"], endpoint := { name := "g", isAsync := true },
    tags := [], attrs := [] }

/-- Witness for the matcher theorem: a route sharing no methods with a
successfully applied delete instruction survives it unchanged. -/
theorem getRoutes_matching_spec_witness :
    (1, exOtherRoute) ∈
      (ApplyState.mk [(0, exRoute.addDeletedTag), (1, exOtherRoute)] []).router :=
  getRoutes_matching_spec.2.2 "ChangeW"
    { router := [(0, exRoute), (1, exOtherRoute)], neverExisted := [] }
    (.didntExist "/users" ["GET"] none)
    { router := [(0, exRoute.addDeletedTag), (1, exOtherRoute)], neverExisted := [] }
    (by decide) (1, exOtherRoute) (by decide) ⟨"POST", by decide, by decide⟩

/-- The preconditions of an instruction that are checked before the
method-accounting check (`method_diff`) is reached: no already-deleted
conflict for a delete, no already-active conflict and no repeated candidates
for a restore, no vacuous attribute for an attribute change, an async old
handler for a handler change. -/
def noPreempt (changeName : String) (st : ApplyState) : Instr → Bool
  | .didntExist path methods funcName => (getRoutes st.router path methods funcName true).isEmpty
  | .existed path methods funcName =>
      (getRoutes st.router path methods funcName false).isEmpty &&
        !hasRepetitions ((getRoutes st.router path methods funcName true).map (·.2))
  | .had path methods funcName hattrs =>
      (getRoutes st.router path methods funcName false).all
        (fun ar => (applyHadAttrs changeName hattrs ar.2).isOk)
  | .was path methods funcName oldEndpoint =>
      (getRoutes st.router path methods funcName false).isEmpty || oldEndpoint.isAsync

/-- `methods_to_which_we_applied_changes` as the instruction computes it:
the method union of the routes it matched (deleted ones for a restore,
active ones otherwise). -/
def affectedMethods (st : ApplyState) : Instr → List String
  | .didntExist path methods funcName =>
      methodsUnion (getRoutes st.router path methods funcName false)
  | .existed path methods funcName =>
      methodsUnion (getRoutes st.router path methods funcName true)
  | .had path methods funcName _ =>
      methodsUnion (getRoutes st.router path methods funcName false)
  | .was path methods funcName _ =>
      methodsUnion (getRoutes st.router path methods funcName false)

theorem diff_empty_iff (methods affected : List String) :
    (methods.filter (fun m => !affected.contains m)) = [] ↔ ∀ m ∈ methods, m ∈ affected := by
  rw [List.filter_eq_nil_iff]
  constructor
  · intro hall m hm
    have := hall m hm
    simpa using this
  · intro hall m hm
    simpa using List.elem_iff.mpr (hall m hm)

theorem applyHadToRouter_ok_of_all {changeName : String} {hattrs : List (String × String)}
    {path : String} {methods : List String} {funcName : Option String}
    {router : List (Nat × Route)}
    (h : ∀ ar ∈ router, routeMatches ar.2 path methods funcName false = true →
        (applyHadAttrs changeName hattrs ar.2).isOk = true) :
    ∃ router', applyHadToRouter changeName hattrs path methods funcName router = .ok router' := by
  induction router with
  | nil => exact ⟨[], rfl⟩
  | cons hd tl ih =>
    obtain ⟨tl', htl⟩ := ih (fun ar hm => h ar (List.mem_cons_of_mem _ hm))
    by_cases hm : routeMatches hd.2 path methods funcName false = true
    · have hhd := h hd (List.mem_cons_self _ _) hm
      cases happ : applyHadAttrs changeName hattrs hd.2 with
      | error e => rw [happ] at hhd; simp [Except.isOk, Except.toBool] at hhd
      | ok r' =>
        refine ⟨(hd.1, r') :: tl', ?_⟩
        simp only [applyHadToRouter, if_pos hm, happ, htl]
    · refine ⟨hd :: tl', ?_⟩
      simp only [applyHadToRouter, if_neg hm, htl]

theorem ifDiff_spec (changeName path : String) (methods affected : List String)
    (okSt : ApplyState) :
    ((if (methods.filter (fun m => !affected.contains m)).isEmpty
          then (.ok okSt : Except Err ApplyState)
          else .error (.unappliedMethods (methods.filter (fun m => !affected.contains m))
            path changeName)) =
        .error (.unappliedMethods (methods.filter (fun m => !affected.contains m))
          path changeName) ↔
      ∃ m ∈ methods, m ∉ affected)
    ∧ ((∃ st', (if (methods.filter (fun m => !affected.contains m)).isEmpty
          then (.ok okSt : Except Err ApplyState)
          else .error (.unappliedMethods (methods.filter (fun m => !affected.contains m))
            path changeName)) = .ok st') ↔
      ∀ m ∈ methods, m ∈ affected) := by
  by_cases hd : (methods.filter (fun m => !affected.contains m)).isEmpty = true
  · rw [if_pos hd]
    have hall : ∀ m ∈ methods, m ∈ affected := (diff_empty_iff _ _).mp (List.isEmpty_iff.mp hd)
    constructor
    · constructor
      · intro habs
        cases habs
      · rintro ⟨m, hm, hn⟩
        exact absurd (hall m hm) hn
    · constructor
      · intro _
        exact hall
      · intro _
        exact ⟨okSt, rfl⟩
  · rw [if_neg hd]
    have hne : (methods.filter (fun m => !affected.contains m)) ≠ [] := by
      intro he
      exact hd (by rw [he]; rfl)
    obtain ⟨m, hm⟩ := List.exists_mem_of_ne_nil _ hne
    have hm' := List.mem_filter.mp hm
    constructor
    · constructor
      · intro _
        exact ⟨m, hm'.1, by simpa using hm'.2⟩
      · intro _
        rfl
    · constructor
      · rintro ⟨st', habs⟩
        cases habs
      · intro hall
        exfalso
        have hmem := hall m hm'.1
        have hnot := hm'.2
        simp only [Bool.not_eq_true'] at hnot
        have hc : affected.contains m = true := List.elem_iff.mpr hmem
        rw [hnot] at hc
        cases hc

/-- **C4.** Method accounting: once an instruction's own preconditions hold,
replaying it fails with the partial-application error exactly when the set of
HTTP methods actually affected does not cover every declared method, succeeds
exactly when it does, and the affected methods always stay inside the declared
set (so failing is exactly "affected differs from declared"). -/
theorem instr_method_accounting (changeName : String) (st : ApplyState) (instr : Instr)
    (h : noPreempt changeName st instr = true) :
    (applyInstr changeName st instr =
        .error (.unappliedMethods
          (instr.epMethods.filter (fun m => !(affectedMethods st instr).contains m))
          instr.epPath changeName) ↔
      ∃ m ∈ instr.epMethods, m ∉ affectedMethods st instr)
    ∧ ((∃ st', applyInstr changeName st instr = .ok st') ↔
        ∀ m ∈ instr.epMethods, m ∈ affectedMethods st instr)
    ∧ (∀ m ∈ affectedMethods st instr, m ∈ instr.epMethods) := by
  cases instr with
  | didntExist path methods funcName =>
    simp only [noPreempt] at h
    simp only [applyInstr, affectedMethods, Instr.epMethods, Instr.epPath, if_pos h]
    exact ⟨(ifDiff_spec _ _ _ _ _).1, (ifDiff_spec _ _ _ _ _).2,
      fun m hm => methodsUnion_getRoutes_subset hm⟩
  | existed path methods funcName =>
    simp only [noPreempt, Bool.and_eq_true] at h
    obtain ⟨h1, h2⟩ := h
    have h2' : hasRepetitions ((getRoutes st.router path methods funcName true).map (·.2)) =
        false := by simpa using h2
    simp only [applyInstr, affectedMethods, Instr.epMethods, Instr.epPath, if_pos h1,
      h2', Bool.false_eq_true, if_false]
    exact ⟨(ifDiff_spec _ _ _ _ _).1, (ifDiff_spec _ _ _ _ _).2,
      fun m hm => methodsUnion_getRoutes_subset hm⟩
  | had path methods funcName hattrs =>
    simp only [noPreempt, List.all_eq_true] at h
    obtain ⟨router', heq⟩ := applyHadToRouter_ok_of_all
      (fun ar hmem hmatch => h ar (mem_getRoutes.mpr ⟨hmem, hmatch⟩))
    simp only [applyInstr, affectedMethods, Instr.epMethods, Instr.epPath, heq]
    exact ⟨(ifDiff_spec _ _ _ _ _).1, (ifDiff_spec _ _ _ _ _).2,
      fun m hm => methodsUnion_getRoutes_subset hm⟩
  | was path methods funcName oldEndpoint =>
    simp only [noPreempt] at h
    simp only [applyInstr, affectedMethods, Instr.epMethods, Instr.epPath, if_pos h]
    exact ⟨(ifDiff_spec _ _ _ _ _).1, (ifDiff_spec _ _ _ _ _).2,
      fun m hm => methodsUnion_getRoutes_subset hm⟩

/-- Witness for the method-accounting theorem at a concrete state. -/
theorem instr_method_accounting_witness :
    noPreempt "ChangeC" { router := [(0, exRoute)], neverExisted := [] }
        (.didntExist "/users" ["GET"] none) = true ∧
      ∀ m ∈ affectedMethods { router := [(0, exRoute)], neverExisted := [] }
          (.didntExist "/users" ["GET"] none),
        m ∈ (Instr.didntExist "/users" ["GET"] none).epMethods :=
  ⟨by decide,
   (instr_method_accounting "ChangeC" { router := [(0, exRoute)], neverExisted := [] }
      (.didntExist "/users" ["GET"] none) (by decide)).2.2⟩

/-! ### The never-restored check (`routes_that_never_existed`) -/

theorem mem_foldl_eraseP {l : List (Nat × Route)} {ne : List Route} {r : Route}
    (h : r ∈ l.foldl (fun ne ar => ne.eraseP (fun x => routeEq x ar.2.removeDeletedTag)) ne) :
    r ∈ ne := by
  induction l generalizing ne with
  | nil => exact h
  | cons hd tl ih => exact List.mem_of_mem_eraseP (ih h)

theorem neverExisted_applyInstr_subset {changeName : String} {st : ApplyState} {instr : Instr}
    {st' : ApplyState} (h : applyInstr changeName st instr = .ok st') :
    ∀ r ∈ st'.neverExisted, r ∈ st.neverExisted := by
  cases instr with
  | didntExist path methods funcName =>
    simp only [applyInstr] at h
    split at h
    · split at h
      · injection h with h1
        subst h1
        exact fun r hr => hr
      · cases h
    · cases h
  | existed path methods funcName =>
    simp only [applyInstr] at h
    split at h
    · split at h
      · cases h
      · split at h
        · injection h with h1
          subst h1
          exact fun r hr => mem_foldl_eraseP hr
        · cases h
    · cases h
  | had path methods funcName hattrs =>
    simp only [applyInstr] at h
    split at h
    · cases h
    · split at h
      · injection h with h1
        subst h1
        exact fun r hr => hr
      · cases h
  | was path methods funcName oldEndpoint =>
    simp only [applyInstr] at h
    split at h
    · split at h
      · injection h with h1
        subst h1
        exact fun r hr => hr
      · cases h
    · cases h

theorem neverExisted_instrs_subset {changeName : String} :
    ∀ (l : List Instr) (st st' : ApplyState),
      l.foldlM (applyInstr changeName) st = .ok st' →
      ∀ r ∈ st'.neverExisted, r ∈ st.neverExisted := by
  intro l
  induction l with
  | nil =>
    intro st st' h
    rw [List.foldlM_nil] at h
    injection h with h1
    subst h1
    exact fun r hr => hr
  | cons a tl ih =>
    intro st st' h
    rw [List.foldlM_cons] at h
    cases ha : applyInstr changeName st a with
    | error e => rw [ha] at h; cases h
    | ok st1 =>
      rw [ha] at h
      exact fun r hr => neverExisted_applyInstr_subset ha r (ih st1 st' h r hr)

theorem neverExisted_applyVersion_subset {st st' : ApplyState} {v : Version}
    (h : applyVersion st v = .ok st') :
    ∀ r ∈ st'.neverExisted, r ∈ st.neverExisted := by
  unfold applyVersion at h
  generalize hl : v.changes = l at h
  clear hl
  induction l generalizing st with
  | nil =>
    rw [List.foldlM_nil] at h
    injection h with h1
    subst h1
    exact fun r hr => hr
  | cons vc tl ih =>
    rw [List.foldlM_cons] at h
    cases ha : applyChange st vc with
    | error e => rw [ha] at h; cases h
    | ok st1 =>
      rw [ha] at h
      intro r hr
      exact neverExisted_instrs_subset vc.instructions st st1 ha r (ih h r hr)

theorem transformGo_neFinal_subset :
    ∀ (versions : List Version) (router : List (Nat × Route)) (nextAddr : Nat)
      (ne : List Route) (acc : List (Nat × List (Nat × Route)))
      (tables : List (Nat × List (Nat × Route))) (neFinal : List Route),
      transformGo router nextAddr ne versions acc = .ok (tables, neFinal) →
      ∀ r ∈ neFinal, r ∈ ne := by
  intro versions
  induction versions with
  | nil =>
    intro router nextAddr ne acc tables neFinal h
    simp only [transformGo] at h
    injection h with h1
    injection h1 with h2 h3
    subst h3
    exact fun r hr => hr
  | cons v rest ih =>
    intro router nextAddr ne acc tables neFinal h
    simp only [transformGo] at h
    split at h
    · cases h
    · rename_i st hv
      exact fun r hr =>
        neverExisted_applyVersion_subset hv r
          (ih st.router (nextAddr + router.length) st.neverExisted _ tables neFinal h r hr)

/-- A concrete route on `/items`. -/
def exItemsRoute : Route :=
  { path := "/items", methods := ["GET"], endpoint := { name := "get_items", isAsync := true },
    tags := [], attrs := [] }

/-- A version (date key 3) whose only change deletes `GET /items` going back. -/
def vDeleteItems : Version :=
  { value := 3,
    changes := [{ name := "RemoveItems", instructions := [.didntExist "/items" ["GET"] none] }] }

/-- A version (date key 2) whose only change restores `GET /users` going back. -/
def vRestoreUsers : Version :=
  { value := 2,
    changes := [{ name := "RestoreUsers", instructions := [.existed "/users" ["GET"] none] }] }

/-- **C3**, counterexample: a route that is marked deleted during replay (by a
didn't-exist-until instruction) and never restored by any older instruction
does NOT make derivation fail.  Here `GET /items` is deleted at version 3 and
never restored, the final working state still carries the deletion mark, yet
`transform` returns a result.  Only decorator-marked routes (deleted in the
input router) are tracked by the never-restored check. -/
theorem transform_ok_despite_unrestored_delete :
    transform [exItemsRoute] [vDeleteItems] = .ok [(3, [(0, exItemsRoute)])] ∧
      applyVersion { router := copyRouter 1 (addrRoutes 0 [exItemsRoute]), neverExisted := [] }
          vDeleteItems =
        .ok { router := [(1, exItemsRoute.addDeletedTag)], neverExisted := [] } :=
  ⟨by decide, by decide⟩

/-- **C3** (amended).  After the full newest-to-oldest traversal, derivation
fails with the never-restored error exactly when the final
`routes_that_never_existed` list is nonempty, and every route in that list is
one of the routes already carrying the deleted marker in the INPUT router
(decorator-marked); routes first marked deleted by replay instructions are
never subject to this check. -/
theorem transform_never_restored_spec (routes : List Route) (versions : List Version)
    (tables : List (Nat × List (Nat × Route))) (neFinal : List Route)
    (h : transformGo (addrRoutes 0 routes) routes.length (routes.filter Route.isDeleted)
        versions [] = .ok (tables, neFinal)) :
    (transform routes versions = .ok tables ↔ neFinal = []) ∧
      (neFinal ≠ [] →
        transform routes versions =
          .error (.neverRestored (neFinal.map (fun r => r.endpoint.name)))) ∧
      (∀ r ∈ neFinal, r ∈ routes.filter Route.isDeleted) := by
  refine ⟨?_, ?_, ?_⟩
  · constructor
    · intro hok
      simp only [transform, h] at hok
      by_cases hne : neFinal.isEmpty = true
      · exact List.isEmpty_iff.mp hne
      · rw [if_neg hne] at hok
        cases hok
    · intro hnil
      simp only [transform, h]
      rw [if_pos (by simp [hnil])]
  · intro hne
    simp only [transform, h]
    rw [if_neg (by simp [List.isEmpty_iff, hne])]
  · exact transformGo_neFinal_subset versions _ _ _ _ tables neFinal h

/-- Witness for the amended never-restored theorem: a decorator-deleted
`GET /users` restored at version 2 discharges the check and derivation
succeeds. -/
theorem transform_never_restored_spec_witness :
    transformGo (addrRoutes 0 [exDeletedRoute]) ([exDeletedRoute] : List Route).length
        ([exDeletedRoute].filter Route.isDeleted) [vRestoreUsers] [] = .ok ([(2, [])], []) ∧
      (transform [exDeletedRoute] [vRestoreUsers] = .ok [(2, [])] ↔ ([] : List Route) = []) :=
  ⟨by decide,
   (transform_never_restored_spec [exDeletedRoute] [vRestoreUsers] [(2, [])] [] (by decide)).1⟩

/-! ### Address discipline: deep copies are fresh, mutation never crosses tables -/

/-- The object addresses (Python identities) of the routes of a table. -/
def tAddrs (t : List (Nat × Route)) : List Nat := t.map (·.1)

/-- Mutating, through every alias, the route object at address `addr`: every
table entry holding that address sees the new value. -/
def mutateRoute (tables : List (Nat × List (Nat × Route))) (addr : Nat) (r : Route) :
    List (Nat × List (Nat × Route)) :=
  tables.map (fun vt => (vt.1, vt.2.map (fun ar => if ar.1 = addr then (ar.1, r) else ar)))

theorem tAddrs_updateMatched (router : List (Nat × Route)) (path : String)
    (methods : List String) (funcName : Option String) (isDeleted : Bool) (f : Route → Route) :
    tAddrs (updateMatched router path methods funcName isDeleted f) = tAddrs router := by
  simp only [tAddrs, updateMatched, List.map_map]
  apply List.map_congr_left
  intro ar _
  by_cases h : routeMatches ar.2 path methods funcName isDeleted = true
  · simp [h]
  · simp [h]

theorem tAddrs_applyHadToRouter {changeName : String} {hattrs : List (String × String)}
    {path : String} {methods : List String} {funcName : Option String}
    {router router' : List (Nat × Route)}
    (h : applyHadToRouter changeName hattrs path methods funcName router = .ok router') :
    tAddrs router' = tAddrs router := by
  induction router generalizing router' with
  | nil =>
    injection h with h1
    subst h1
    rfl
  | cons hd tl ih =>
    by_cases hm : routeMatches hd.2 path methods funcName false = true
    · simp only [applyHadToRouter, if_pos hm] at h
      cases happ : applyHadAttrs changeName hattrs hd.2 with
      | error e => rw [happ] at h; cases h
      | ok r' =>
        rw [happ] at h
        cases hrest : applyHadToRouter changeName hattrs path methods funcName tl with
        | error e => rw [hrest] at h; cases h
        | ok tl' =>
          rw [hrest] at h
          injection h with h1
          subst h1
          simpa [tAddrs] using ih hrest
    · simp only [applyHadToRouter, if_neg hm] at h
      cases hrest : applyHadToRouter changeName hattrs path methods funcName tl with
      | error e => rw [hrest] at h; cases h
      | ok tl' =>
        rw [hrest] at h
        injection h with h1
        subst h1
        simpa [tAddrs] using ih hrest

theorem tAddrs_applyInstr {changeName : String} {st : ApplyState} {instr : Instr}
    {st' : ApplyState} (h : applyInstr changeName st instr = .ok st') :
    tAddrs st'.router = tAddrs st.router := by
  cases instr with
  | didntExist path methods funcName =>
    simp only [applyInstr] at h
    split at h
    · split at h
      · injection h with h1
        subst h1
        exact tAddrs_updateMatched ..
      · cases h
    · cases h
  | existed path methods funcName =>
    simp only [applyInstr] at h
    split at h
    · split at h
      · cases h
      · split at h
        · injection h with h1
          subst h1
          exact tAddrs_updateMatched ..
        · cases h
    · cases h
  | had path methods funcName hattrs =>
    simp only [applyInstr] at h
    split at h
    · cases h
    · rename_i router heq
      split at h
      · injection h with h1
        subst h1
        exact tAddrs_applyHadToRouter heq
      · cases h
  | was path methods funcName oldEndpoint =>
    simp only [applyInstr] at h
    split at h
    · split at h
      · injection h with h1
        subst h1
        show tAddrs (updateMatched st.router path methods funcName false
          (fun r => { r with endpoint := oldEndpoint })) = tAddrs st.router
        exact tAddrs_updateMatched ..
      · cases h
    · cases h

theorem tAddrs_applyChange {st st' : ApplyState} {vc : VersionChange}
    (h : applyChange st vc = .ok st') : tAddrs st'.router = tAddrs st.router := by
  unfold applyChange at h
  generalize hl : vc.instructions = l at h
  clear hl
  induction l generalizing st with
  | nil =>
    rw [List.foldlM_nil] at h
    injection h with h1
    subst h1
    rfl
  | cons a tl ih =>
    rw [List.foldlM_cons] at h
    cases ha : applyInstr vc.name st a with
    | error e => rw [ha] at h; cases h
    | ok st1 => rw [ha] at h; rw [ih h, tAddrs_applyInstr ha]

theorem tAddrs_applyVersion {st st' : ApplyState} {v : Version}
    (h : applyVersion st v = .ok st') : tAddrs st'.router = tAddrs st.router := by
  unfold applyVersion at h
  generalize hl : v.changes = l at h
  clear hl
  induction l generalizing st with
  | nil =>
    rw [List.foldlM_nil] at h
    injection h with h1
    subst h1
    rfl
  | cons vc tl ih =>
    rw [List.foldlM_cons] at h
    cases ha : applyChange st vc with
    | error e => rw [ha] at h; cases h
    | ok st1 => rw [ha] at h; rw [ih h, tAddrs_applyChange ha]

theorem tAddrs_addrRoutes (n : Nat) (l : List Route) :
    tAddrs (addrRoutes n l) = List.range' n l.length := by
  induction l generalizing n with
  | nil => rfl
  | cons r tl ih => simp [addrRoutes, tAddrs, List.range'] at ih ⊢; exact ih (n + 1)

theorem tAddrs_copyRouter (n : Nat) (router : List (Nat × Route)) :
    tAddrs (copyRouter n router) = List.range' n router.length := by
  unfold copyRouter
  rw [tAddrs_addrRoutes, List.length_map]

theorem tAddrs_filterDeleted_subset {router : List (Nat × Route)} {a : Nat}
    (h : a ∈ tAddrs (filterDeleted router)) : a ∈ tAddrs router := by
  simp only [tAddrs, List.mem_map] at h ⊢
  obtain ⟨ar, hmem, heq⟩ := h
  exact ⟨ar, (List.mem_filter.mp hmem).1, heq⟩

theorem transformGo_tables_disjoint :
    ∀ (versions : List Version) (router : List (Nat × Route)) (nextAddr : Nat)
      (ne : List Route) (acc : List (Nat × List (Nat × Route)))
      (tables : List (Nat × List (Nat × Route))) (neFinal : List Route),
      transformGo router nextAddr ne versions acc = .ok (tables, neFinal) →
      (∀ a ∈ tAddrs router, a < nextAddr) →
      (∀ t ∈ acc, ∀ a ∈ tAddrs t.2, a < nextAddr) →
      acc.Pairwise (fun t1 t2 => (tAddrs t1.2).Disjoint (tAddrs t2.2)) →
      (∀ t ∈ acc, (tAddrs t.2).Disjoint (tAddrs router)) →
      tables.Pairwise (fun t1 t2 => (tAddrs t1.2).Disjoint (tAddrs t2.2)) := by
  intro versions
  induction versions with
  | nil =>
    intro router nextAddr ne acc tables neFinal h _ _ hpw _
    simp only [transformGo] at h
    injection h with h1
    injection h1 with h2 h3
    subst h2
    exact hpw
  | cons v rest ih =>
    intro router nextAddr ne acc tables neFinal h hrb hab hpw hdisj
    simp only [transformGo] at h
    split at h
    · cases h
    · rename_i st hv
      have haddrs : tAddrs st.router = List.range' nextAddr router.length :=
        (tAddrs_applyVersion hv).trans (tAddrs_copyRouter nextAddr router)
      apply ih st.router (nextAddr + router.length) st.neverExisted _ tables neFinal h
      · intro a ha
        rw [haddrs] at ha
        exact (List.mem_range'_1.mp ha).2
      · intro t ht a ha
        rcases List.mem_append.mp ht with h1 | h1
        · exact lt_of_lt_of_le (hab t h1 a ha) (Nat.le_add_right _ _)
        · rw [List.mem_singleton.mp h1] at ha
          exact lt_of_lt_of_le (hrb a (tAddrs_filterDeleted_subset ha)) (Nat.le_add_right _ _)
      · rw [List.pairwise_append]
        refine ⟨hpw, List.pairwise_singleton _ _, ?_⟩
        intro t1 h1 t2 h2
        rw [List.mem_singleton.mp h2]
        intro a ha1 ha2
        exact hdisj t1 h1 ha1 (tAddrs_filterDeleted_subset ha2)
      · intro t ht a ha1 ha2
        rw [haddrs] at ha2
        have hlow := (List.mem_range'_1.mp ha2).1
        rcases List.mem_append.mp ht with h1 | h1
        · exact absurd hlow (Nat.not_le.mpr (hab t h1 a ha1))
        · rw [List.mem_singleton.mp h1] at ha1
          exact absurd hlow (Nat.not_le.mpr (hrb a (tAddrs_filterDeleted_subset ha1)))

theorem transform_ok_inv {routes : List Route} {versions : List Version}
    {tables : List (Nat × List (Nat × Route))}
    (h : transform routes versions = .ok tables) :
    ∃ neFinal, transformGo (addrRoutes 0 routes) routes.length
        (routes.filter Route.isDeleted) versions [] = .ok (tables, neFinal) := by
  cases hgo : transformGo (addrRoutes 0 routes) routes.length
      (routes.filter Route.isDeleted) versions [] with
  | error e =>
    simp [transform, hgo] at h
  | ok p =>
    obtain ⟨tbls, neF⟩ := p
    simp only [transform, hgo] at h
    by_cases hne : neF.isEmpty = true
    · rw [if_pos hne] at h
      injection h with h1
      subst h1
      exact ⟨neF, rfl⟩
    · rw [if_neg hne] at h
      cases h

/-- **C2.** Non-aliasing across version tables: in a successful derivation the
route objects of any two tables recorded for distinct version keys occupy
disjoint addresses, so mutating (through every alias) the object held at an
address belonging to one version's table leaves every other version's table
exactly as it was. -/
theorem transform_tables_non_aliasing (routes : List Route) (versions : List Version)
    (tables : List (Nat × List (Nat × Route)))
    (h : transform routes versions = .ok tables)
    (v1 v2 : Nat) (t1 t2 : List (Nat × Route))
    (h1 : (v1, t1) ∈ tables) (h2 : (v2, t2) ∈ tables) (hne : v1 ≠ v2)
    (a : Nat) (r : Route) (ha : (a, r) ∈ t1) (r' : Route) :
    (v2, t2) ∈ mutateRoute tables a r' := by
  obtain ⟨neF, hgo⟩ := transform_ok_inv h
  have hpw := transformGo_tables_disjoint versions _ _ _ _ tables neF hgo
    (by
      intro x hx
      rw [tAddrs_addrRoutes] at hx
      simpa using (List.mem_range'_1.mp hx).2)
    (by intro t ht; cases ht) List.Pairwise.nil (by intro t ht; cases ht)
  have hdisj : (tAddrs t1).Disjoint (tAddrs t2) :=
    List.Pairwise.forall (fun x y hxy => List.disjoint_symm hxy) hpw h1 h2
      (fun he => hne (congrArg Prod.fst he))
  have ht2 : t2.map (fun ar => if ar.1 = a then (ar.1, r') else ar) = t2 := by
    have hfix : ∀ ar ∈ t2, (if ar.1 = a then (ar.1, r') else ar) = id ar := by
      intro ar har
      have hne1 : ar.1 ≠ a := by
        intro heq
        exact hdisj (List.mem_map_of_mem (·.1) ha)
          (heq ▸ List.mem_map_of_mem (·.1) har)
      simp [hne1]
    rw [List.map_congr_left hfix, List.map_id]
  have hmap := List.mem_map_of_mem
    (fun vt : Nat × List (Nat × Route) =>
      (vt.1, vt.2.map (fun ar => if ar.1 = a then (ar.1, r') else ar))) h2
  simpa [mutateRoute, ht2] using hmap

/-- Witness for the non-aliasing theorem: two empty version changes produce two
tables holding copies of `GET /items` at distinct addresses; mutating the copy
of version 3's table leaves version 2's table untouched. -/
theorem transform_tables_non_aliasing_witness :
    transform [exItemsRoute] [{ value := 3, changes := [] }, { value := 2, changes := [] }] =
        .ok [(3, [(0, exItemsRoute)]), (2, [(1, exItemsRoute)])] ∧
      (2, [(1, exItemsRoute)]) ∈
        mutateRoute [(3, [(0, exItemsRoute)]), (2, [(1, exItemsRoute)])] 0 exOtherRoute :=
  ⟨by decide,
   transform_tables_non_aliasing [exItemsRoute]
     [{ value := 3, changes := [] }, { value := 2, changes := [] }]
     [(3, [(0, exItemsRoute)]), (2, [(1, exItemsRoute)])] (by decide)
     3 2 [(0, exItemsRoute)] [(1, exItemsRoute)] (by decide) (by decide) (by decide)
     0 exItemsRoute (by decide) exOtherRoute⟩

/-! ### Tracking the routes of one path through the replay -/

/-- The route values of a given path held by a router, in order. -/
def pRoutes (p : String) (router : List (Nat × Route)) : List Route :=
  (router.map (·.2)).filter (fun r => r.path == p)

/-- The function-name component of `_get_routes`' predicate in isolation. -/
def nameOk (funcName : Option String) (r : Route) : Bool :=
  match funcName with
  | none => true
  | some f => r.endpoint.name == f

theorem mem_pRoutes_path {p : String} {router : List (Nat × Route)} {r : Route}
    (h : r ∈ pRoutes p router) : r.path = p := by
  have := (List.mem_filter.mp h).2
  simpa using this

theorem map_snd_addrRoutes (n : Nat) (l : List Route) : (addrRoutes n l).map (·.2) = l := by
  induction l generalizing n with
  | nil => rfl
  | cons r tl ih => simp [addrRoutes, ih]

theorem pRoutes_copyRouter (p : String) (n : Nat) (router : List (Nat × Route)) :
    pRoutes p (copyRouter n router) = pRoutes p router := by
  unfold pRoutes copyRouter
  rw [map_snd_addrRoutes]

theorem pRoutes_addrRoutes (p : String) (n : Nat) (l : List Route) :
    pRoutes p (addrRoutes n l) = l.filter (fun r => r.path == p) := by
  unfold pRoutes
  rw [map_snd_addrRoutes]

theorem path_addDeletedTag (r : Route) : r.addDeletedTag.path = r.path := rfl

theorem path_removeDeletedTag (r : Route) : r.removeDeletedTag.path = r.path := rfl

theorem isDeleted_addDeletedTag (r : Route) : r.addDeletedTag.isDeleted = true := by
  simp [Route.addDeletedTag, Route.isDeleted]

theorem removeDeletedTag_addDeletedTag {r : Route} (h : r.isDeleted = false) :
    r.addDeletedTag.removeDeletedTag = r := by
  have hnot : deletedRouteTag ∉ r.tags := by
    intro hmem
    rw [show r.isDeleted = true by simpa [Route.isDeleted] using List.elem_iff.mpr hmem] at h
    cases h
  show ({ r with tags := (r.tags ++ [deletedRouteTag]).erase deletedRouteTag } : Route) = r
  rw [List.erase_append_right _ hnot, List.erase_cons_head, List.append_nil]

theorem pRoutes_updateMatched {p path0 : String} {methods : List String}
    {funcName : Option String} {isDeleted : Bool} {f : Route → Route}
    (hpath : ∀ r, (f r).path = r.path) (router : List (Nat × Route)) :
    pRoutes p (updateMatched router path0 methods funcName isDeleted f) =
      (pRoutes p router).map
        (fun r => if routeMatches r path0 methods funcName isDeleted then f r else r) := by
  induction router with
  | nil => rfl
  | cons ar rest ih =>
    simp only [updateMatched, List.map_cons] at ih ⊢
    by_cases hm : routeMatches ar.2 path0 methods funcName isDeleted = true
    · rw [if_pos hm]
      by_cases hp : (ar.2.path == p) = true
      · have hp' : ((f ar.2).path == p) = true := by
          rw [hpath ar.2]
          exact hp
        simp only [pRoutes, List.map_cons, List.filter_cons, hp, hp', if_pos]
        simp only [pRoutes] at ih
        rw [ih]
        simp [hm]
      · have hp' : ((f ar.2).path == p) = false := by
          rw [hpath ar.2]
          simpa using hp
        simp only [pRoutes, List.map_cons, List.filter_cons, hp', if_neg]
        simp only [pRoutes] at ih
        simpa [hp] using ih
    · rw [if_neg hm]
      by_cases hp : (ar.2.path == p) = true
      · simp only [pRoutes, List.map_cons, List.filter_cons, hp, if_pos]
        simp only [pRoutes] at ih
        rw [ih]
        simp [hm]
      · simp only [pRoutes, List.map_cons, List.filter_cons]
        simp only [pRoutes] at ih
        simpa [hp] using ih

theorem pRoutes_updateMatched_other {p path0 : String} {methods : List String}
    {funcName : Option String} {isDeleted : Bool} {f : Route → Route}
    (hpath : ∀ r, (f r).path = r.path) (hne : path0 ≠ p) (router : List (Nat × Route)) :
    pRoutes p (updateMatched router path0 methods funcName isDeleted f) = pRoutes p router := by
  rw [pRoutes_updateMatched hpath]
  have hfix : ∀ r ∈ pRoutes p router,
      (if routeMatches r path0 methods funcName isDeleted then f r else r) = id r := by
    intro r hr
    have hpp := mem_pRoutes_path hr
    have : routeMatches r path0 methods funcName isDeleted = false := by
      rw [Bool.eq_false_iff]
      intro htrue
      exact hne ((routeMatches_iff.mp htrue).1 ▸ hpp.symm ▸ rfl)
    simp [this]
  rw [List.map_congr_left hfix, List.map_id]

theorem applyHadAttrs_path {changeName : String} {hattrs : List (String × String)} {r r' : Route}
    (h : applyHadAttrs changeName hattrs r = .ok r') : r'.path = r.path := by
  induction hattrs generalizing r with
  | nil =>
    injection h with h1
    rw [← h1]
  | cons nv rest ih =>
    obtain ⟨n, v⟩ := nv
    simp only [applyHadAttrs] at h
    split at h
    · cases h
    · rw [ih h]
      rfl

theorem pRoutes_applyHadToRouter_other {p : String} {changeName : String}
    {hattrs : List (String × String)} {path0 : String} {methods : List String}
    {funcName : Option String} {router router' : List (Nat × Route)}
    (hne : path0 ≠ p)
    (h : applyHadToRouter changeName hattrs path0 methods funcName router = .ok router') :
    pRoutes p router' = pRoutes p router := by
  induction router generalizing router' with
  | nil =>
    injection h with h1
    rw [← h1]
  | cons hd tl ih =>
    by_cases hm : routeMatches hd.2 path0 methods funcName false = true
    · simp only [applyHadToRouter, if_pos hm] at h
      cases happ : applyHadAttrs changeName hattrs hd.2 with
      | error e => rw [happ] at h; cases h
      | ok r' =>
        rw [happ] at h
        cases hrest : applyHadToRouter changeName hattrs path0 methods funcName tl with
        | error e => rw [hrest] at h; cases h
        | ok tl' =>
          rw [hrest] at h
          injection h with h1
          subst h1
          have hpd : hd.2.path = path0 := (routeMatches_iff.mp hm).1
          have hp : (hd.2.path == p) = false := by
            simp [hpd]
            exact hne
          have hp' : (r'.path == p) = false := by
            rw [applyHadAttrs_path happ]
            exact hp
          simp only [pRoutes, List.map_cons, List.filter_cons, hp, hp', if_neg]
          exact ih hrest
    · simp only [applyHadToRouter, if_neg hm] at h
      cases hrest : applyHadToRouter changeName hattrs path0 methods funcName tl with
      | error e => rw [hrest] at h; cases h
      | ok tl' =>
        rw [hrest] at h
        injection h with h1
        subst h1
        simp only [pRoutes, List.map_cons, List.filter_cons]
        by_cases hp : (hd.2.path == p) = true
        · simp only [hp, if_pos]
          have := ih hrest
          simp only [pRoutes] at this
          rw [this]
        · simp only [hp]
          have := ih hrest
          simp only [pRoutes] at this
          simpa [hp] using this

theorem pRoutes_applyInstr_other {p : String} {changeName : String} {st : ApplyState}
    {instr : Instr} {st' : ApplyState} (hne : instr.epPath ≠ p)
    (h : applyInstr changeName st instr = .ok st') :
    pRoutes p st'.router = pRoutes p st.router := by
  cases instr with
  | didntExist path methods funcName =>
    simp only [Instr.epPath] at hne
    simp only [applyInstr] at h
    split at h
    · split at h
      · injection h with h1
        rw [← h1]
        show pRoutes p (updateMatched st.router path methods funcName false
          Route.addDeletedTag) = pRoutes p st.router
        exact pRoutes_updateMatched_other (f := Route.addDeletedTag) (fun r => rfl) hne st.router
      · cases h
    · cases h
  | existed path methods funcName =>
    simp only [Instr.epPath] at hne
    simp only [applyInstr] at h
    split at h
    · split at h
      · cases h
      · split at h
        · injection h with h1
          rw [← h1]
          show pRoutes p (updateMatched st.router path methods funcName true
            Route.removeDeletedTag) = pRoutes p st.router
          exact pRoutes_updateMatched_other (f := Route.removeDeletedTag) (fun r => rfl) hne
            st.router
        · cases h
    · cases h
  | had path methods funcName hattrs =>
    simp only [Instr.epPath] at hne
    simp only [applyInstr] at h
    split at h
    · cases h
    · rename_i router heq
      split at h
      · injection h with h1
        rw [← h1]
        exact pRoutes_applyHadToRouter_other hne heq
      · cases h
  | was path methods funcName oldEndpoint =>
    simp only [Instr.epPath] at hne
    simp only [applyInstr] at h
    split at h
    · split at h
      · injection h with h1
        rw [← h1]
        show pRoutes p (updateMatched st.router path methods funcName false
          (fun r => { r with endpoint := oldEndpoint })) = pRoutes p st.router
        exact pRoutes_updateMatched_other (f := fun r => { r with endpoint := oldEndpoint })
          (fun r => rfl) hne st.router
      · cases h
    · cases h

theorem pRoutes_applyChange_other {p : String} {st st' : ApplyState} {vc : VersionChange}
    (hne : ∀ i ∈ vc.instructions, i.epPath ≠ p) (h : applyChange st vc = .ok st') :
    pRoutes p st'.router = pRoutes p st.router := by
  unfold applyChange at h
  generalize hl : vc.instructions = l at h hne
  clear hl
  induction l generalizing st with
  | nil =>
    rw [List.foldlM_nil] at h
    injection h with h1
    rw [← h1]
  | cons a tl ih =>
    rw [List.foldlM_cons] at h
    cases ha : applyInstr vc.name st a with
    | error e => rw [ha] at h; cases h
    | ok st1 =>
      rw [ha] at h
      rw [ih h (fun i hi => hne i (List.mem_cons_of_mem _ hi)),
        pRoutes_applyInstr_other (hne a (List.mem_cons_self _ _)) ha]

theorem pRoutes_applyVersion_other {p : String} {st st' : ApplyState} {v : Version}
    (hne : ∀ vc ∈ v.changes, ∀ i ∈ vc.instructions, i.epPath ≠ p)
    (h : applyVersion st v = .ok st') :
    pRoutes p st'.router = pRoutes p st.router := by
  unfold applyVersion at h
  generalize hl : v.changes = l at h hne
  clear hl
  induction l generalizing st with
  | nil =>
    rw [List.foldlM_nil] at h
    injection h with h1
    rw [← h1]
  | cons vc tl ih =>
    rw [List.foldlM_cons] at h
    cases ha : applyChange st vc with
    | error e => rw [ha] at h; cases h
    | ok st1 =>
      rw [ha] at h
      rw [ih h (fun c hc => hne c (List.mem_cons_of_mem _ hc)),
        pRoutes_applyChange_other (hne vc (List.mem_cons_self _ _)) ha]

theorem foldlM_singleton {α : Type} (f : ApplyState → α → Except Err ApplyState)
    (st : ApplyState) (a : α) : [a].foldlM f st = f st a := by
  rw [List.foldlM_cons]
  cases f st a with
  | error e => rfl
  | ok st1 => rfl

theorem applyVersion_singleton (st : ApplyState) (X : Nat) (n : String) (i : Instr) :
    applyVersion st { value := X, changes := [{ name := n, instructions := [i] }] } =
      applyInstr n st i := by
  show List.foldlM applyChange st [{ name := n, instructions := [i] }] = applyInstr n st i
  rw [foldlM_singleton]
  show List.foldlM (applyInstr n) st [i] = applyInstr n st i
  rw [foldlM_singleton]

theorem applyInstr_didntExist_ok_router {changeName : String} {st : ApplyState} {p : String}
    {M : List String} {fn : Option String} {st' : ApplyState}
    (h : applyInstr changeName st (.didntExist p M fn) = .ok st') :
    st'.router = updateMatched st.router p M fn false Route.addDeletedTag := by
  simp only [applyInstr] at h
  split at h
  · split at h
    · injection h with h1
      rw [← h1]
    · cases h
  · cases h

theorem applyInstr_existed_ok_router {changeName : String} {st : ApplyState} {p : String}
    {M : List String} {fn : Option String} {st' : ApplyState}
    (h : applyInstr changeName st (.existed p M fn) = .ok st') :
    st'.router = updateMatched st.router p M fn true Route.removeDeletedTag := by
  simp only [applyInstr] at h
  split at h
  · split at h
    · cases h
    · split at h
      · injection h with h1
        rw [← h1]
      · cases h
  · cases h

theorem pRoutes_step_didntExist {changeName : String} {st st' : ApplyState} {p : String}
    {M : List String} {fn : Option String} {r0 : Route}
    (hpr : pRoutes p st.router = [r0]) (hmatch : routeMatches r0 p M fn false = true)
    (h : applyInstr changeName st (.didntExist p M fn) = .ok st') :
    pRoutes p st'.router = [r0.addDeletedTag] := by
  rw [show st'.router = updateMatched st.router p M fn false Route.addDeletedTag from
    applyInstr_didntExist_ok_router h]
  rw [pRoutes_updateMatched (f := Route.addDeletedTag) (fun r => rfl) st.router, hpr]
  simp [hmatch]

theorem pRoutes_step_existed {changeName : String} {st st' : ApplyState} {p : String}
    {M : List String} {fn : Option String} {r0 : Route}
    (hpr : pRoutes p st.router = [r0.addDeletedTag])
    (hmatch : routeMatches r0.addDeletedTag p M fn true = true)
    (hact : r0.isDeleted = false)
    (h : applyInstr changeName st (.existed p M fn) = .ok st') :
    pRoutes p st'.router = [r0] := by
  rw [show st'.router = updateMatched st.router p M fn true Route.removeDeletedTag from
    applyInstr_existed_ok_router h]
  rw [pRoutes_updateMatched (f := Route.removeDeletedTag) (fun r => rfl) st.router, hpr]
  simp [hmatch, removeDeletedTag_addDeletedTag hact]

theorem routeMatches_self {r0 : Route} {p : String} {M : List String} {fn : Option String}
    (hp : r0.path = p) (hM : r0.methods = M) (hfn : nameOk fn r0 = true)
    (hdel : r0.isDeleted = false) : routeMatches r0 p M fn false = true := by
  rw [routeMatches_iff]
  refine ⟨hp, ?_, ?_, hdel⟩
  · rw [hM]
    exact fun m hm => hm
  · intro f hf
    cases fn with
    | none => cases hf
    | some g =>
      injection hf with h1
      subst h1
      simpa [nameOk] using hfn

theorem routeMatches_tagged {r0 : Route} {p : String} {M : List String} {fn : Option String}
    (hp : r0.path = p) (hM : r0.methods = M) (hfn : nameOk fn r0 = true) :
    routeMatches r0.addDeletedTag p M fn true = true := by
  rw [routeMatches_iff]
  refine ⟨hp, ?_, ?_, isDeleted_addDeletedTag r0⟩
  · show ∀ m ∈ r0.methods, m ∈ M
    rw [hM]
    exact fun m hm => hm
  · intro f hf
    cases fn with
    | none => cases hf
    | some g =>
      injection hf with h1
      subst h1
      simpa [nameOk] using hfn

theorem filterDeleted_hasP {p : String} {router : List (Nat × Route)} :
    (∃ ar ∈ filterDeleted router, ar.2.path = p) ↔
      ∃ r ∈ pRoutes p router, r.isDeleted = false := by
  constructor
  · rintro ⟨ar, hmem, hp⟩
    have h2 := List.mem_filter.mp hmem
    refine ⟨ar.2, ?_, by simpa using h2.2⟩
    exact List.mem_filter.mpr ⟨List.mem_map_of_mem _ h2.1, by simp [hp]⟩
  · rintro ⟨r, hmem, hdel⟩
    have h2 := List.mem_filter.mp hmem
    obtain ⟨ar, har, hsnd⟩ := List.mem_map.mp h2.1
    refine ⟨ar, List.mem_filter.mpr ⟨har, by simp [hsnd, hdel]⟩, ?_⟩
    rw [hsnd]
    simpa using h2.2

theorem filterDeleted_p_mem {p : String} {router : List (Nat × Route)} {ar : Nat × Route}
    (hmem : ar ∈ filterDeleted router) (hp : ar.2.path = p) : ar.2 ∈ pRoutes p router :=
  List.mem_filter.mpr ⟨List.mem_map_of_mem _ (List.mem_filter.mp hmem).1, by simp [hp]⟩

/-- Versions none of whose instructions touch path `p`. -/
def avoidsPath (p : String) (vs : List Version) : Prop :=
  ∀ v ∈ vs, ∀ vc ∈ v.changes, ∀ i ∈ vc.instructions, i.epPath ≠ p

instance (p : String) (vs : List Version) : Decidable (avoidsPath p vs) := by
  unfold avoidsPath
  infer_instance

theorem transformGo_segment {p : String} :
    ∀ (S rest : List Version) (router : List (Nat × Route)) (nextAddr : Nat) (ne : List Route)
      (acc tables : List (Nat × List (Nat × Route))) (neFinal : List Route),
      avoidsPath p S →
      transformGo router nextAddr ne (S ++ rest) acc = .ok (tables, neFinal) →
      ∃ (rt : List (Nat × Route)) (na : Nat) (ne' : List Route)
        (newT : List (Nat × List (Nat × Route))),
        transformGo rt na ne' rest (acc ++ newT) = .ok (tables, neFinal) ∧
        pRoutes p rt = pRoutes p router ∧
        ∀ e ∈ newT, (∃ v ∈ S, e.1 = v.value) ∧
          ((∃ ar ∈ e.2, ar.2.path = p) ↔ ∃ r ∈ pRoutes p router, r.isDeleted = false) ∧
          (∀ ar ∈ e.2, ar.2.path = p → ar.2 ∈ pRoutes p router) := by
  intro S
  induction S with
  | nil =>
    intro rest router nextAddr ne acc tables neFinal _ h
    refine ⟨router, nextAddr, ne, [], by simpa using h, rfl, ?_⟩
    intro e he
    cases he
  | cons v S' ih =>
    intro rest router nextAddr ne acc tables neFinal havoid h
    rw [List.cons_append] at h
    simp only [transformGo] at h
    split at h
    · cases h
    · rename_i st hv
      have hpr : pRoutes p st.router = pRoutes p router := by
        rw [pRoutes_applyVersion_other (havoid v (List.mem_cons_self _ _)) hv]
        exact pRoutes_copyRouter p nextAddr router
      obtain ⟨rt, na, ne', newT, hgo, hpr', hprops⟩ :=
        ih rest st.router (nextAddr + router.length) st.neverExisted
          (acc ++ [(v.value, filterDeleted router)]) tables neFinal
          (fun w hw => havoid w (List.mem_cons_of_mem _ hw)) h
      rw [List.append_assoc, List.singleton_append] at hgo
      refine ⟨rt, na, ne', (v.value, filterDeleted router) :: newT, hgo, ?_, ?_⟩
      · rw [hpr', hpr]
      · intro e he
        rcases List.mem_cons.mp he with rfl | he'
        · exact ⟨⟨v, List.mem_cons_self _ _, rfl⟩, filterDeleted_hasP,
            fun ar hm hp => filterDeleted_p_mem hm hp⟩
        · obtain ⟨hkey, hiff, hmem⟩ := hprops e he'
          rw [hpr] at hiff hmem
          obtain ⟨w, hw, hkeyw⟩ := hkey
          exact ⟨⟨w, List.mem_cons_of_mem _ hw, hkeyw⟩, hiff, hmem⟩

/-- A version (date key 1) whose only change restores `GET /items` going back. -/
def vRestoreItems : Version :=
  { value := 1,
    changes := [{ name := "RestoreItems", instructions := [.existed "/items" ["GET"] none] }] }

/-- **C1**, counterexample: with the didn't-exist-until instruction at version
X = 3 and the existed-before instruction at version Y = 1, the claim demands
the route be absent from the table of version 3 (at/after X) and present in
the table of version 1 (before X).  The code produces the opposite: the table
recorded for version 3 still holds the active `GET /items` route, and the table
for version 1 is empty. -/
theorem roundtrip_claim_counterexample :
    transform [exItemsRoute] [vDeleteItems, vRestoreItems] =
        .ok [(3, [(0, exItemsRoute)]), (1, [])] ∧
      (∃ ar ∈ [(0, exItemsRoute)], ar.2.path = "/items") ∧
      ¬ ∃ ar ∈ ([] : List (Nat × Route)), ar.2.path = "/items" := by
  refine ⟨by decide, ⟨(0, exItemsRoute), List.mem_singleton_self _, rfl⟩, ?_⟩
  rintro ⟨ar, har, _⟩
  cases har

/-- **C1** (amended).  For an endpoint identity subject to a
didn't-exist-until instruction at version X and an existed-before instruction
at version Y (Y strictly older than X), with no other instruction touching the
path and exactly one active route of that identity in the latest router, the
derived mapping contains the active route (exactly the original route value)
in the table of every version AT OR AFTER X and in the table of every version
STRICTLY BEFORE Y, and contains no route of that path in the tables of the
versions from Y up to (excluding) X.  This is the reverse of the claimed
direction: a version's own instructions only shape the tables of strictly
older versions. -/
theorem transform_roundtrip_amended
    (routes : List Route) (A B C : List Version) (r0 : Route) (p : String) (M : List String)
    (fnX fnY : Option String) (nX nY : String) (X Y : Nat)
    (tables : List (Nat × List (Nat × Route)))
    (hsorted : (A ++
        { value := X, changes := [{ name := nX, instructions := [.didntExist p M fnX] }] } ::
          (B ++
            { value := Y, changes := [{ name := nY, instructions := [.existed p M fnY] }] } ::
              C) : List Version).Pairwise (fun u w => w.value < u.value))
    (hA : avoidsPath p A) (hB : avoidsPath p B) (hC : avoidsPath p C)
    (hr0 : routes.filter (fun r => r.path == p) = [r0])
    (hact : r0.isDeleted = false) (hM : r0.methods = M)
    (hfnX : nameOk fnX r0 = true) (hfnY : nameOk fnY r0 = true)
    (hok : transform routes
        (A ++
          { value := X, changes := [{ name := nX, instructions := [.didntExist p M fnX] }] } ::
            (B ++
              { value := Y, changes := [{ name := nY, instructions := [.existed p M fnY] }] } ::
                C)) = .ok tables) :
    ∀ e ∈ tables, ((∃ ar ∈ e.2, ar.2.path = p) ↔ (X ≤ e.1 ∨ e.1 < Y)) ∧
      ∀ ar ∈ e.2, ar.2.path = p → ar.2 = r0 := by
  obtain ⟨neF, hgo⟩ := transform_ok_inv hok
  have hr0mem : r0 ∈ routes.filter (fun r => r.path == p) := by
    rw [hr0]
    exact List.mem_singleton_self r0
  have hr0path : r0.path = p := by simpa using (List.mem_filter.mp hr0mem).2
  rw [List.pairwise_append] at hsorted
  obtain ⟨hPA, hrest, hAall⟩ := hsorted
  rw [List.pairwise_cons] at hrest
  obtain ⟨hXall, hrest2⟩ := hrest
  rw [List.pairwise_append] at hrest2
  obtain ⟨hPB, hrest3, hBall⟩ := hrest2
  rw [List.pairwise_cons] at hrest3
  obtain ⟨hYall, _⟩ := hrest3
  have hAgtX : ∀ v ∈ A, X < v.value := fun v hv =>
    hAall v hv _ (List.mem_cons_self _ _)
  have hXgtB : ∀ v ∈ B, v.value < X := fun v hv =>
    hXall v (List.mem_append_left _ hv)
  have hXY : Y < X :=
    hXall _ (List.mem_append_right _ (List.mem_cons_self _ _))
  have hBgtY : ∀ v ∈ B, Y < v.value := fun v hv =>
    hBall v hv _ (List.mem_cons_self _ _)
  have hYgtC : ∀ v ∈ C, v.value < Y := fun v hv => hYall v hv
  have hinit : pRoutes p (addrRoutes 0 routes) = [r0] := by
    rw [pRoutes_addrRoutes, hr0]
  obtain ⟨rt1, na1, ne1, TA, hgo1, hpr1, hTA⟩ :=
    transformGo_segment A _ (addrRoutes 0 routes) routes.length
      (routes.filter Route.isDeleted) [] tables neF hA hgo
  rw [hinit] at hpr1 hTA
  simp only [transformGo] at hgo1
  split at hgo1
  · cases hgo1
  · rename_i stX hvX
    rw [applyVersion_singleton] at hvX
    have hprX : pRoutes p stX.router = [Route.addDeletedTag r0] := by
      refine pRoutes_step_didntExist ?_ (routeMatches_self hr0path hM hfnX hact) hvX
      show pRoutes p (copyRouter na1 rt1) = [r0]
      rw [pRoutes_copyRouter, hpr1]
    obtain ⟨rt2, na2, ne2, TB, hgo2, hpr2, hTB⟩ :=
      transformGo_segment B _ stX.router (na1 + rt1.length) stX.neverExisted
        _ tables neF hB hgo1
    rw [hprX] at hpr2 hTB
    simp only [transformGo] at hgo2
    split at hgo2
    · cases hgo2
    · rename_i stY hvY
      rw [applyVersion_singleton] at hvY
      have hprY : pRoutes p stY.router = [r0] := by
        refine pRoutes_step_existed ?_ (routeMatches_tagged hr0path hM hfnY) hact hvY
        show pRoutes p (copyRouter na2 rt2) = [Route.addDeletedTag r0]
        rw [pRoutes_copyRouter, hpr2]
      obtain ⟨rt3, na3, ne3, TC, hgo3, hpr3, hTC⟩ :=
        transformGo_segment C [] stY.router (na2 + rt2.length) stY.neverExisted
          _ tables neF hC (by simpa using hgo2)
      rw [hprY] at hpr3 hTC
      simp only [transformGo] at hgo3
      injection hgo3 with h1
      injection h1 with htab hne3
      intro e he
      rw [← htab] at he
      have hnpB : ∀ t2 : List (Nat × Route),
          ((∃ ar ∈ t2, ar.2.path = p) ↔
            ∃ r ∈ [Route.addDeletedTag r0], r.isDeleted = false) →
          ¬ ∃ ar ∈ t2, ar.2.path = p := by
        intro t2 hiff hex
        obtain ⟨r, hr, hdel⟩ := hiff.mp hex
        rw [List.mem_singleton.mp hr, isDeleted_addDeletedTag] at hdel
        cases hdel
      rcases List.mem_append.mp he with hleft | hCmem
      case inr =>
        -- a table of segment C: route present, key < Y
        obtain ⟨⟨v, hvC, hkey⟩, hiff, hmemP⟩ := hTC e hCmem
        refine ⟨⟨fun _ => Or.inr ?_, fun _ =>
          hiff.mpr ⟨r0, List.mem_singleton_self _, hact⟩⟩, ?_⟩
        · rw [hkey]
          exact hYgtC v hvC
        · intro ar har hp
          have := hmemP ar har hp
          simpa using this
      rcases List.mem_append.mp hleft with hAmem | hmid
      · -- a table of segment A: route present, key > X
        obtain ⟨⟨v, hvA, hkey⟩, hiff, hmemP⟩ := hTA e hAmem
        refine ⟨⟨fun _ => Or.inl ?_, fun _ =>
          hiff.mpr ⟨r0, List.mem_singleton_self _, hact⟩⟩, ?_⟩
        · rw [hkey]
          exact Nat.le_of_lt (hAgtX v hvA)
        · intro ar har hp
          have := hmemP ar har hp
          simpa using this
      · rcases List.mem_cons.mp hmid with hXeq | hrest2
        · -- the table recorded for version X itself: route present
          rw [hXeq]
          refine ⟨⟨fun _ => Or.inl (Nat.le_refl X), fun _ =>
            filterDeleted_hasP.mpr ?_⟩, ?_⟩
          · rw [hpr1]
            exact ⟨r0, List.mem_singleton_self _, hact⟩
          · intro ar har hp
            have := filterDeleted_p_mem har hp
            rw [hpr1] at this
            simpa using this
        · rcases List.mem_append.mp hrest2 with hBmem | hYmem
          · -- a table of segment B: route absent, Y < key < X
            obtain ⟨⟨v, hvB, hkey⟩, hiff, hmemP⟩ := hTB e hBmem
            have hnp := hnpB e.2 hiff
            refine ⟨⟨fun hex => (hnp hex).elim, fun hor => ?_⟩,
              fun ar har hp => (hnp ⟨ar, har, hp⟩).elim⟩
            rcases hor with hge | hlt
            · rw [hkey] at hge
              exact absurd hge (Nat.not_le.mpr (hXgtB v hvB))
            · rw [hkey] at hlt
              exact absurd hlt (Nat.not_lt.mpr (Nat.le_of_lt (hBgtY v hvB)))
          · -- the table recorded for version Y itself: route absent
            rw [List.mem_singleton.mp hYmem]
            have hnp : ¬ ∃ ar ∈ filterDeleted rt2, ar.2.path = p := by
              intro hex
              obtain ⟨r, hr, hdel⟩ := filterDeleted_hasP.mp hex
              rw [hpr2] at hr
              rw [List.mem_singleton.mp hr, isDeleted_addDeletedTag] at hdel
              cases hdel
            refine ⟨⟨fun hex => (hnp hex).elim, fun hor => ?_⟩,
              fun ar har hp => (hnp ⟨ar, har, hp⟩).elim⟩
            rcases hor with hge | hlt
            · exact absurd hge (Nat.not_le.mpr hXY)
            · exact absurd hlt (Nat.lt_irrefl Y)

/-- Witness for the amended round-trip theorem: `GET /items` deleted at
version 4 and restored at version 2, with bystander versions 5, 3, 1; the
table of version 5 (at or after X = 4) contains the route. -/
theorem transform_roundtrip_amended_witness :
    transform [exItemsRoute]
        ([{ value := 5, changes := [] }] ++
          { value := 4, changes := [{ name := "DelItems", instructions := [.didntExist "/items" ["GET"] none] }] } ::
            ([{ value := 3, changes := [] }] ++
              { value := 2, changes := [{ name := "ResItems", instructions := [.existed "/items" ["GET"] none] }] } ::
                [{ value := 1, changes := [] }])) =
      .ok [(5, [(0, exItemsRoute)]), (4, [(1, exItemsRoute)]), (3, []), (2, []),
        (1, [(4, exItemsRoute)])] ∧
      ((∃ ar ∈ [(0, exItemsRoute)], ar.2.path = "/items") ↔ (4 ≤ 5 ∨ 5 < 2)) :=
  ⟨by decide,
   ((transform_roundtrip_amended [exItemsRoute] [{ value := 5, changes := [] }]
      [{ value := 3, changes := [] }] [{ value := 1, changes := [] }] exItemsRoute
      "/items" ["GET"] none none "DelItems" "ResItems" 4 2
      [(5, [(0, exItemsRoute)]), (4, [(1, exItemsRoute)]), (3, []), (2, []),
        (1, [(4, exItemsRoute)])]
      (by decide) (by decide) (by decide) (by decide) (by decide) (by decide) (by decide)
      (by decide) (by decide) (by decide))
     (5, [(0, exItemsRoute)]) (by decide)).1⟩

/-! ### The annotation-rewrite engine (`_AnnotationTransformer`) -/

/-- A concrete schema-defining class as the engine inspects it: a concept
name, the file reported by `inspect.getsourcefile` (paths are modelled as
segment lists: `str.startswith` on directory prefixes becomes segment
`isPrefixOf`), and whether it is a schema-defining type
(`issubclass(annotation, BaseModel | Enum)`). -/
structure TypeModel where
  conceptName : String
  sourceFile : List String
  isSchemaType : Bool
deriving DecidableEq, Repr

/-- Directory bookkeeping of `_AnnotationTransformer` (`__slots__`), as
computed in `__init__`: `version_dirs` is the package path of the latest
schemas module plus one directory per version; `template_version_dir` is the
minimum ("latest" sorts before "v0000_00_00"), `latest_version_dir` the
maximum ("v2005_11_11" after "v2000_11_11"); the parent directory is
`template_version_dir.parent`.  Directories are segment lists. -/
structure AnnTransformer where
  parentDir : List String
  templateVersionDir : List String
  latestVersionDir : List String
  versionDirs : List (List String)
deriving DecidableEq, Repr

/-- Modelled from the spec (`get_another_version_of_cls` lives in
`universi/_utils.py`, which is not under src/): the concrete schema type is
"looked up in the target namespace by equivalent name" — the same concept,
now defined in (a file of) the target version directory. -/
def getAnotherVersionOfCls (t : TypeModel) (versionDir : List String) : TypeModel :=
  { t with sourceFile := versionDir ++ [t.conceptName ++ ".py"] }

/-- `_AnnotationTransformer._change_version_of_type`: for a schema-defining
type retargeted to the latest version directory, a source file that sits
among the versioned directories (under their parent, not under "latest", and
inside some version directory) is a construction-time error; otherwise the
type is looked up in the target namespace. -/
def changeVersionOfType (tr : AnnTransformer) (t : TypeModel) (versionDir : List String) :
    Except Err TypeModel :=
  if t.isSchemaType then
    if versionDir == tr.latestVersionDir then
      if tr.parentDir.isPrefixOf t.sourceFile
          && !(tr.templateVersionDir.isPrefixOf t.sourceFile)
          && tr.versionDirs.any (fun d => d.isPrefixOf t.sourceFile) then
        .error (.misplacedType t.conceptName t.sourceFile)
      else .ok (getAnotherVersionOfCls t versionDir)
    else .ok (getAnotherVersionOfCls t versionDir)
  else .ok t

/-! A Python annotation value as the engine dispatches on it: a concrete
class, a parameterized generic, a union, a `Depends` wrapper, `typing.Any`,
a `NewType` marker, a dict/list/tuple container, or anything else (returned
unchanged).  Callables are modelled separately (`CallableModel` below), as in
the source their branch synthesizes a new function. -/

mutual
inductive Ann where
  | typeAnn (t : TypeModel)
  | genericAlias (origin : String) (args : AnnList)
  | unionAnn (args : AnnList)
  | dependsAnn (dependency : Ann) (useCache : Bool)
  | anyAnn
  | newTypeAnn (nm : String)
  | dictAnn (pairs : AnnPairList)
  | listAnn (elems : AnnList)
  | tupleAnn (elems : AnnList)
  | otherAnn (tag : String)
deriving DecidableEq
inductive AnnList where
  | nil
  | cons (hd : Ann) (tl : AnnList)
deriving DecidableEq
inductive AnnPairList where
  | nil
  | cons (k v : Ann) (tl : AnnPairList)
deriving DecidableEq
end

mutual
/-- `_change_version_of_annotations`: dict keys and values, list and tuple
elements are retargeted pointwise; everything else goes through the
non-container function (the cached one in the source; the cache returns the
values of this pure computation, and is modelled explicitly below). -/
def changeAnnotations (tr : AnnTransformer) (dir : List String) : Ann → Except Err Ann
  | .dictAnn pairs => do
      pure (.dictAnn (← changePairs tr dir pairs))
  | .listAnn elems => do
      pure (.listAnn (← changeAnnList tr dir elems))
  | .tupleAnn elems => do
      pure (.tupleAnn (← changeAnnList tr dir elems))
  | a => changeNonContainer tr dir a
termination_by a => (sizeOf a, 1)

/-- `_change_versions_of_a_non_container_annotation`: generic aliases are
rebuilt over retargeted arguments, `Depends` over the retargeted dependency,
unions over retargeted members; `Any` and `NewType` pass through; types go
through `_change_version_of_type`; anything else is returned unchanged. -/
def changeNonContainer (tr : AnnTransformer) (dir : List String) : Ann → Except Err Ann
  | .genericAlias origin args => do
      pure (.genericAlias origin (← changeAnnList tr dir args))
  | .dependsAnn dep useCache => do
      pure (.dependsAnn (← changeAnnotations tr dir dep) useCache)
  | .unionAnn args => do
      pure (.unionAnn (← changeAnnList tr dir args))
  | .anyAnn => pure .anyAnn
  | .newTypeAnn nm => pure (.newTypeAnn nm)
  | .typeAnn t => do
      pure (.typeAnn (← changeVersionOfType tr t dir))
  | a => pure a
termination_by a => (sizeOf a, 0)

def changeAnnList (tr : AnnTransformer) (dir : List String) : AnnList → Except Err AnnList
  | .nil => pure .nil
  | .cons hd tl => do
      pure (.cons (← changeAnnotations tr dir hd) (← changeAnnList tr dir tl))
termination_by l => (sizeOf l, 0)

def changePairs (tr : AnnTransformer) (dir : List String) : AnnPairList → Except Err AnnPairList
  | .nil => pure .nil
  | .cons k v tl => do
      pure (.cons (← changeAnnotations tr dir k) (← changeAnnotations tr dir v)
        (← changePairs tr dir tl))
termination_by l => (sizeOf l, 0)
end

/-- The memoization cache of one engine instance
(`functools.cache(self._change_versions_of_a_non_container_annotation)`,
created per instance in `__init__`): an association from (annotation value,
target directory) to the first computed result.  Python keys it by
equality/hash of the arguments. -/
def lookupCache : List ((Ann × List String) × Except Err Ann) → Ann → List String →
    Option (Except Err Ann)
  | [], _, _ => none
  | ((k, d), res) :: rest, a, dir =>
    if k == a && d == dir then some res else lookupCache rest a dir

/-- One call through the cached non-container function: a hit returns the
stored result and leaves the cache unchanged; a miss computes once and
stores the result. -/
def cachedChangeNonContainer (tr : AnnTransformer)
    (cache : List ((Ann × List String) × Except Err Ann)) (a : Ann) (dir : List String) :
    Except Err Ann × List ((Ann × List String) × Except Err Ann) :=
  match lookupCache cache a dir with
  | some res => (res, cache)
  | none => (changeNonContainer tr dir a, ((a, dir), changeNonContainer tr dir a) :: cache)

/-- **C7.** Misplaced type: retargeting to the latest version directory (as
derivation does when migrating the newest version) raises the
construction-time misplaced-type error for every concrete schema-defining
type whose source file sits among the versioned directories (under their
common parent and inside some version directory) but not under the "latest"
template directory. -/
theorem misplaced_type_error (tr : AnnTransformer) (t : TypeModel)
    (hschema : t.isSchemaType = true)
    (hparent : tr.parentDir.isPrefixOf t.sourceFile = true)
    (hnottempl : tr.templateVersionDir.isPrefixOf t.sourceFile = false)
    (hsome : ∃ d ∈ tr.versionDirs, d.isPrefixOf t.sourceFile = true) :
    changeVersionOfType tr t tr.latestVersionDir =
      .error (.misplacedType t.conceptName t.sourceFile) := by
  have hcond : (tr.parentDir.isPrefixOf t.sourceFile &&
      !(tr.templateVersionDir.isPrefixOf t.sourceFile) &&
      tr.versionDirs.any (fun d => d.isPrefixOf t.sourceFile)) = true := by
    rw [hparent, hnottempl]
    simp only [Bool.not_false, Bool.true_and]
    rw [List.any_eq_true]
    exact hsome
  unfold changeVersionOfType
  rw [if_pos hschema, if_pos (beq_self_eq_true _), if_pos hcond]

/-- A concrete transformer over `/app/schemas` with versions 2022-01-01 and
2023-02-02 (the latter being the latest version directory). -/
def exTransformer : AnnTransformer :=
  { parentDir := ["app", "schemas"],
    templateVersionDir := ["app", "schemas", "latest"],
    latestVersionDir := ["app", "schemas", "v2023_02_02"],
    versionDirs := [["app", "schemas", "latest"], ["app", "schemas", "v2022_01_01"],
      ["app", "schemas", "v2023_02_02"]] }

/-- A schema type correctly defined in the "latest" template directory. -/
def exLatestType : TypeModel :=
  { conceptName := "UserResponse", sourceFile := ["app", "schemas", "latest", "UserResponse.py"],
    isSchemaType := true }

/-- The same concept pinned into the 2022 version directory. -/
def exV2022Type : TypeModel :=
  { conceptName := "UserResponse",
    sourceFile := ["app", "schemas", "v2022_01_01", "UserResponse.py"],
    isSchemaType := true }

/-- The same concept as produced by retargeting to the latest version
directory. -/
def exRetargetedType : TypeModel :=
  { conceptName := "UserResponse",
    sourceFile := ["app", "schemas", "v2023_02_02", "UserResponse.py"],
    isSchemaType := true }

/-- Witness for the misplaced-type theorem: a schema type pinned into the
2022 directory is rejected when derivation retargets to the latest version
directory. -/
theorem misplaced_type_error_witness :
    (exV2022Type.isSchemaType = true ∧
      exTransformer.parentDir.isPrefixOf exV2022Type.sourceFile = true ∧
      exTransformer.templateVersionDir.isPrefixOf exV2022Type.sourceFile = false) ∧
      changeVersionOfType exTransformer exV2022Type exTransformer.latestVersionDir =
        .error (.misplacedType "UserResponse"
          ["app", "schemas", "v2022_01_01", "UserResponse.py"]) :=
  ⟨⟨by decide, by decide, by decide⟩,
   misplaced_type_error exTransformer exV2022Type (by decide) (by decide) (by decide)
     ⟨["app", "schemas", "v2022_01_01"], by decide, by decide⟩⟩

/-- **C8**, counterexample: retargeting an already-retargeted value to the
same namespace does NOT always yield an equivalent value.  Retargeting a
"latest" schema type to the latest version directory succeeds, but
retargeting the result to the same directory again raises the misplaced-type
error, because the retargeted class is now defined inside a versioned
directory. -/
theorem retarget_idempotence_counterexample :
    changeVersionOfType exTransformer exLatestType ["app", "schemas", "v2023_02_02"] =
        .ok exRetargetedType ∧
      changeVersionOfType exTransformer exRetargetedType ["app", "schemas", "v2023_02_02"] =
        .error (.misplacedType "UserResponse"
          ["app", "schemas", "v2023_02_02", "UserResponse.py"]) :=
  ⟨by decide, by decide⟩

/-- **C8** (amended).  Within one engine instance, calling the cached
non-container retargeting a second time with the same value and target
returns the identical stored result and leaves the cache unchanged; and for a
NON-latest target directory, retargeting an already-retargeted type to the
same directory returns it unchanged.  (For the latest version directory the
second retargeting instead raises the misplaced-type error, as the
counterexample shows.) -/
theorem cached_retargeting_spec (tr : AnnTransformer)
    (cache : List ((Ann × List String) × Except Err Ann)) (a : Ann) (dir : List String) :
    (cachedChangeNonContainer tr (cachedChangeNonContainer tr cache a dir).2 a dir =
        cachedChangeNonContainer tr cache a dir) ∧
      (∀ t t' : TypeModel, dir ≠ tr.latestVersionDir →
        changeVersionOfType tr t dir = .ok t' →
        changeVersionOfType tr t' dir = .ok t') := by
  constructor
  · cases h : lookupCache cache a dir with
    | some res =>
      simp [cachedChangeNonContainer, h]
    | none =>
      simp only [cachedChangeNonContainer, h]
      simp [lookupCache]
  · intro t t' hne h
    have hbeq : (dir == tr.latestVersionDir) = false := by
      rw [beq_eq_false_iff_ne]
      exact hne
    unfold changeVersionOfType at h ⊢
    by_cases hs : t.isSchemaType = true
    · rw [if_pos hs, hbeq] at h
      simp only [Bool.false_eq_true, if_false] at h
      injection h with h1
      subst h1
      have hs' : (getAnotherVersionOfCls t dir).isSchemaType = true := hs
      rw [if_pos hs', hbeq]
      simp only [Bool.false_eq_true, if_false]
      show Except.ok (getAnotherVersionOfCls (getAnotherVersionOfCls t dir) dir) =
        Except.ok (getAnotherVersionOfCls t dir)
      unfold getAnotherVersionOfCls
      rfl
    · rw [if_neg hs] at h
      injection h with h1
      subst h1
      rw [if_neg hs]

/-- Witness for the amended retargeting theorem: retargeting the 2022 copy of
`UserResponse` to the 2022 directory again returns it unchanged, and the
cache behavior is exercised at a concrete type annotation. -/
theorem cached_retargeting_spec_witness :
    ((["app", "schemas", "v2022_01_01"] : List String) ≠ exTransformer.latestVersionDir ∧
      changeVersionOfType exTransformer exLatestType ["app", "schemas", "v2022_01_01"] =
        .ok exV2022Type) ∧
      changeVersionOfType exTransformer exV2022Type ["app", "schemas", "v2022_01_01"] =
        .ok exV2022Type :=
  ⟨⟨by decide, by decide⟩,
   (cached_retargeting_spec exTransformer [] (.typeAnn exLatestType)
      ["app", "schemas", "v2022_01_01"]).2 exLatestType exV2022Type (by decide) (by decide)⟩

/-! ### Callable retargeting and `_generate_signature` -/

/-- `inspect.Parameter.kind`. -/
inductive ParamKind where
  | positionalOnly
  | positionalOrKeyword
  | varPositional
  | keywordOnly
  | varKeyword
deriving DecidableEq, Repr

/-- One `inspect.Parameter`: name, kind, optional default
(`inspect.Signature.empty` modelled as `none`) and optional annotation. -/
structure Param where
  name : String
  kind : ParamKind
  default : Option Ann
  annotation : Option Ann
deriving DecidableEq

/-- A handler or dependency callable as signature introspection sees it. -/
structure CallableModel where
  name : String
  isAsync : Bool
  params : List Param
  retAnn : Option Ann
deriving DecidableEq

/-- The parameter entries of `callable.__annotations__`. -/
def annotEntries (l : List Param) : List (String × Ann) :=
  l.filterMap (fun q => q.annotation.map (fun a => (q.name, a)))

/-- `callable.__annotations__`: one entry per annotated parameter plus the
return annotation under the key `"return"`. -/
def annotationsDict (c : CallableModel) : List (String × Ann) :=
  annotEntries c.params ++
    (match c.retAnn with
     | some a => [("return", a)]
     | none => [])

/-- Retarget the values of the `__annotations__` dict (its keys are strings,
which the dispatcher returns unchanged). -/
def changeAnnValues (tr : AnnTransformer) (dir : List String) :
    List (String × Ann) → Except Err (List (String × Ann))
  | [] => pure []
  | (k, v) :: rest => do
      pure ((k, ← changeAnnotations tr dir v) :: (← changeAnnValues tr dir rest))

/-- Retarget the `__defaults__` tuple
(`tuple(p.default for p in old_params.values() if p.default is not empty)`). -/
def changeAnnL (tr : AnnTransformer) (dir : List String) :
    List Ann → Except Err (List Ann)
  | [] => pure []
  | a :: rest => do
      pure ((← changeAnnotations tr dir a) :: (← changeAnnL tr dir rest))

/-- `_generate_signature`: rebuild the parameter list from the ORIGINAL
parameters in order, preserving each name and kind; a parameter that had a
default receives the next entry of the retargeted `__defaults__` tuple
(`default_counter`), and each annotation is looked up by name in the
retargeted `__annotations__` (absent means `inspect.Signature.empty`).
Tuple indexing past the end cannot occur in engine use and is modelled as
`none`. -/
def generateSignatureParams : List Param → List Ann → List (String × Ann) → List Param
  | [], _, _ => []
  | prm :: rest, defaults, annots =>
    if prm.default.isSome then
      { name := prm.name, kind := prm.kind, default := defaults.head?,
        annotation := annots.lookup prm.name } ::
        generateSignatureParams rest defaults.tail annots
    else
      { name := prm.name, kind := prm.kind, default := none,
        annotation := annots.lookup prm.name } ::
        generateSignatureParams rest defaults annots

/-- The callable branch of the non-container dispatcher (with
`_generate_signature`): a new callable with the same behavior, name and
async-ness, whose `__annotations__` values and `__defaults__` are retargeted
and whose introspectable signature is rebuilt from the original parameters
plus the retargeted annotations and defaults. -/
def retargetCallable (tr : AnnTransformer) (dir : List String) (c : CallableModel) :
    Except Err CallableModel := do
  let newAnnots ← changeAnnValues tr dir (annotationsDict c)
  let newDefaults ← changeAnnL tr dir (c.params.filterMap Param.default)
  pure { name := c.name, isAsync := c.isAsync,
         params := generateSignatureParams c.params newDefaults newAnnots,
         retAnn := newAnnots.lookup "return" }

theorem generateSignatureParams_names_kinds :
    ∀ (params : List Param) (defaults : List Ann) (annots : List (String × Ann)),
      (generateSignatureParams params defaults annots).map Param.name = params.map Param.name ∧
      (generateSignatureParams params defaults annots).map Param.kind =
        params.map Param.kind := by
  intro params
  induction params with
  | nil => intro defaults annots; exact ⟨rfl, rfl⟩
  | cons p0 rest ih =>
    intro defaults annots
    by_cases h : p0.default.isSome = true
    · simp only [generateSignatureParams, if_pos h, List.map_cons]
      exact ⟨by rw [(ih defaults.tail annots).1], by rw [(ih defaults.tail annots).2]⟩
    · simp only [generateSignatureParams, if_neg h, List.map_cons]
      exact ⟨by rw [(ih defaults annots).1], by rw [(ih defaults annots).2]⟩

theorem lookup_keys_ne_none {k : String} :
    ∀ (l : List (String × Ann)), (∀ kv ∈ l, kv.1 ≠ k) → l.lookup k = none := by
  intro l
  induction l with
  | nil => intro _; rfl
  | cons kv rest ih =>
    intro h
    obtain ⟨k0, v0⟩ := kv
    have hne : k0 ≠ k := h (k0, v0) (List.mem_cons_self _ _)
    simp only [List.lookup]
    rw [show (k == k0) = false from beq_eq_false_iff_ne.mpr (fun he => hne he.symm)]
    exact ih (fun kv hkv => h kv (List.mem_cons_of_mem _ hkv))

theorem mem_annotEntries_name {l : List Param} {kv : String × Ann}
    (h : kv ∈ annotEntries l) : kv.1 ∈ l.map Param.name := by
  obtain ⟨q, hq, hmap⟩ := List.mem_filterMap.mp h
  cases ha : q.annotation with
  | none => rw [ha] at hmap; cases hmap
  | some a =>
    rw [ha] at hmap
    injection hmap with h1
    rw [← h1]
    exact List.mem_map_of_mem Param.name hq

theorem lookup_annotationsDict {c : CallableModel} (hnd : (c.params.map Param.name).Nodup)
    (hret : ∀ q ∈ c.params, q.name ≠ "return") {prm : Param} (hmem : prm ∈ c.params) :
    (annotationsDict c).lookup prm.name = prm.annotation := by
  unfold annotationsDict
  have hretpart : ∀ kv ∈ (match c.retAnn with
      | some a => [(("return" : String), a)]
      | none => ([] : List (String × Ann))), kv.1 = "return" := by
    cases c.retAnn with
    | none => intro kv hkv; cases hkv
    | some a =>
      intro kv hkv
      rw [List.mem_singleton.mp hkv]
  generalize hrp : (match c.retAnn with
      | some a => [(("return" : String), a)]
      | none => ([] : List (String × Ann))) = retpart at hretpart ⊢
  clear hrp
  generalize hl : c.params = l at hnd hret hmem
  clear hl
  induction l with
  | nil => cases hmem
  | cons q0 rest ih =>
    have hnd' : (rest.map Param.name).Nodup := (List.nodup_cons.mp hnd).2
    have hq0notin : q0.name ∉ rest.map Param.name := (List.nodup_cons.mp hnd).1
    rcases List.mem_cons.mp hmem with heq | hmem'
    · subst heq
      cases ha : prm.annotation with
      | some a =>
        show List.lookup prm.name (annotEntries (prm :: rest) ++ retpart) = some a
        unfold annotEntries
        rw [List.filterMap_cons, ha]
        simp only [Option.map_some']
        show List.lookup prm.name (((prm.name, a) :: annotEntries rest) ++ retpart) = some a
        rw [List.cons_append]
        simp [List.lookup]
      | none =>
        show List.lookup prm.name (annotEntries (prm :: rest) ++ retpart) = none
        unfold annotEntries
        rw [List.filterMap_cons, ha]
        simp only [Option.map_none']
        apply lookup_keys_ne_none
        intro kv hkv
        rcases List.mem_append.mp hkv with hkv1 | hkv2
        · intro he
          exact hq0notin (he ▸ mem_annotEntries_name hkv1)
        · intro he
          exact hret prm (List.mem_cons_self _ _) (he ▸ hretpart kv hkv2)
    · have hstep : List.lookup prm.name (annotEntries (q0 :: rest) ++ retpart) =
          List.lookup prm.name (annotEntries rest ++ retpart) := by
        unfold annotEntries
        rw [List.filterMap_cons]
        cases ha0 : q0.annotation with
        | none => rfl
        | some a0 =>
          simp only [Option.map_some']
          rw [List.cons_append]
          simp only [List.lookup]
          rw [show (prm.name == q0.name) = false from beq_eq_false_iff_ne.mpr ?_]
          intro he
          exact hq0notin (he ▸ List.mem_map_of_mem Param.name hmem')
      rw [hstep]
      exact ih hnd' (fun q hq => hret q (List.mem_cons_of_mem _ hq)) hmem'

theorem lookup_changeAnnValues {tr : AnnTransformer} {dir : List String}
    {l l' : List (String × Ann)} (h : changeAnnValues tr dir l = .ok l') (k : String) :
    (l.lookup k = none → l'.lookup k = none) ∧
    (∀ v, l.lookup k = some v →
      ∃ v', changeAnnotations tr dir v = .ok v' ∧ l'.lookup k = some v') := by
  induction l generalizing l' with
  | nil =>
    injection h with h1
    subst h1
    exact ⟨fun _ => rfl, fun v hv => by cases hv⟩
  | cons kv rest ih =>
    obtain ⟨k0, v0⟩ := kv
    simp only [changeAnnValues] at h
    cases hv0 : changeAnnotations tr dir v0 with
    | error e => rw [hv0] at h; cases h
    | ok v0' =>
      rw [hv0] at h
      cases hrest : changeAnnValues tr dir rest with
      | error e => rw [hrest] at h; cases h
      | ok rest' =>
        rw [hrest] at h
        injection h with h1
        subst h1
        by_cases hk : (k == k0) = true
        · constructor
          · intro hnone
            simp only [List.lookup, hk] at hnone
            cases hnone
          · intro v hv
            simp only [List.lookup, hk] at hv ⊢
            injection hv with h2
            subst h2
            exact ⟨v0', hv0, rfl⟩
        · have hk' : (k == k0) = false := by
            rw [Bool.eq_false_iff]
            exact hk
          constructor
          · intro hnone
            simp only [List.lookup, hk'] at hnone ⊢
            exact (ih hrest).1 hnone
          · intro v hv
            simp only [List.lookup, hk'] at hv ⊢
            exact (ih hrest).2 v hv

theorem generateSignatureParams_retarget (tr : AnnTransformer) (dir : List String) :
    ∀ (params : List Param) (defaults : List Ann) (annots : List (String × Ann)),
      changeAnnL tr dir (params.filterMap Param.default) = .ok defaults →
      ∀ (i : Nat) (prm : Param), params.get? i = some prm →
        ∃ prm', (generateSignatureParams params defaults annots).get? i = some prm' ∧
          prm'.name = prm.name ∧ prm'.kind = prm.kind ∧
          prm'.annotation = annots.lookup prm.name ∧
          (prm.default = none → prm'.default = none) ∧
          (∀ d, prm.default = some d →
            ∃ d', changeAnnotations tr dir d = .ok d' ∧ prm'.default = some d') := by
  intro params
  induction params with
  | nil =>
    intro defaults annots _ i prm hget
    cases hget
  | cons p0 rest ih =>
    intro defaults annots hdef i prm hget
    cases hd0 : p0.default with
    | some d0 =>
      simp only [List.filterMap_cons, hd0] at hdef
      simp only [changeAnnL] at hdef
      cases hcd : changeAnnotations tr dir d0 with
      | error e => rw [hcd] at hdef; cases hdef
      | ok d0' =>
        rw [hcd] at hdef
        cases hrest : changeAnnL tr dir (rest.filterMap Param.default) with
        | error e => rw [hrest] at hdef; cases hdef
        | ok rest' =>
          rw [hrest] at hdef
          injection hdef with h1
          subst h1
          have hsome : p0.default.isSome = true := by rw [hd0]; rfl
          cases i with
          | zero =>
            injection hget with h2
            subst h2
            refine ⟨⟨p0.name, p0.kind, some d0', annots.lookup p0.name⟩,
              ?_, rfl, rfl, rfl, ?_, ?_⟩
            · simp [generateSignatureParams, hsome]
            · intro hnone
              rw [hd0] at hnone
              cases hnone
            · intro d hd
              rw [hd0] at hd
              injection hd with h3
              subst h3
              exact ⟨d0', hcd, rfl⟩
          | succ j =>
            obtain ⟨prm', hg, hn, hk, ha, hdn, hds⟩ := ih rest' annots hrest j prm hget
            refine ⟨prm', ?_, hn, hk, ha, hdn, hds⟩
            simp only [generateSignatureParams, if_pos hsome]
            exact hg
    | none =>
      simp only [List.filterMap_cons, hd0] at hdef
      have hnone0 : p0.default.isSome = false := by rw [hd0]; rfl
      cases i with
      | zero =>
        injection hget with h2
        subst h2
        refine ⟨⟨p0.name, p0.kind, none, annots.lookup p0.name⟩,
          ?_, rfl, rfl, rfl, fun _ => rfl, ?_⟩
        · simp [generateSignatureParams, hnone0]
        · intro d hd
          rw [hd0] at hd
          cases hd
      | succ j =>
        obtain ⟨prm', hg, hn, hk, ha, hdn, hds⟩ := ih defaults annots hdef j prm hget
        refine ⟨prm', ?_, hn, hk, ha, hdn, hds⟩
        simp only [generateSignatureParams, hnone0, Bool.false_eq_true, if_false]
        exact hg

/-- **C9.** Signature preservation: a callable retargeted by the engine keeps
its name, async-ness, and the names, kinds and order of its parameters
exactly; each parameter's annotation and default are replaced by their
retargeted equivalents (absent ones stay absent). -/
theorem signature_preservation (tr : AnnTransformer) (dir : List String)
    (c c' : CallableModel) (hok : retargetCallable tr dir c = .ok c')
    (hnd : (c.params.map Param.name).Nodup)
    (hret : ∀ q ∈ c.params, q.name ≠ "return") :
    c'.name = c.name ∧ c'.isAsync = c.isAsync ∧
      c'.params.map Param.name = c.params.map Param.name ∧
      c'.params.map Param.kind = c.params.map Param.kind ∧
      (∀ (i : Nat) (prm : Param), c.params.get? i = some prm →
        ∃ prm', c'.params.get? i = some prm' ∧ prm'.name = prm.name ∧ prm'.kind = prm.kind ∧
          (prm.annotation = none → prm'.annotation = none) ∧
          (∀ a, prm.annotation = some a →
            ∃ a', changeAnnotations tr dir a = .ok a' ∧ prm'.annotation = some a') ∧
          (prm.default = none → prm'.default = none) ∧
          (∀ d, prm.default = some d →
            ∃ d', changeAnnotations tr dir d = .ok d' ∧ prm'.default = some d')) := by
  simp only [retargetCallable] at hok
  cases hann : changeAnnValues tr dir (annotationsDict c) with
  | error e => rw [hann] at hok; cases hok
  | ok newAnnots =>
    rw [hann] at hok
    cases hdef : changeAnnL tr dir (c.params.filterMap Param.default) with
    | error e => rw [hdef] at hok; cases hok
    | ok newDefaults =>
      rw [hdef] at hok
      injection hok with h1
      subst h1
      refine ⟨rfl, rfl, (generateSignatureParams_names_kinds _ _ _).1,
        (generateSignatureParams_names_kinds _ _ _).2, ?_⟩
      intro i prm hget
      obtain ⟨prm', hg, hn, hk, ha, hdn, hds⟩ :=
        generateSignatureParams_retarget tr dir c.params newDefaults newAnnots hdef i prm hget
      have hmem : prm ∈ c.params := List.get?_mem hget
      have hlk : (annotationsDict c).lookup prm.name = prm.annotation :=
        lookup_annotationsDict hnd hret hmem
      have hlc := lookup_changeAnnValues hann prm.name
      refine ⟨prm', hg, hn, hk, ?_, ?_, hdn, hds⟩
      · intro hnone
        rw [ha]
        exact hlc.1 (by rw [hlk, hnone])
      · intro a hsomea
        obtain ⟨a', hca, hl'⟩ := hlc.2 a (by rw [hlk, hsomea])
        exact ⟨a', hca, by rw [ha, hl']⟩

/-- A concrete async handler taking a `latest` schema type and returning one. -/
def exCallable : CallableModel :=
  { name := "get_user", isAsync := true,
    params := [{ name := "data", kind := ParamKind.positionalOrKeyword, default := none, annotation := some (Ann.typeAnn exLatestType) }],
    retAnn := some (.typeAnn exLatestType) }

/-- The handler after retargeting to the 2022 version directory. -/
def exCallableRetargeted : CallableModel :=
  { name := "get_user", isAsync := true,
    params := [{ name := "data", kind := ParamKind.positionalOrKeyword, default := none, annotation := some (Ann.typeAnn exV2022Type) }],
    retAnn := some (.typeAnn exV2022Type) }

theorem retargetCallable_exCallable :
    retargetCallable exTransformer ["app", "schemas", "v2022_01_01"] exCallable =
      .ok exCallableRetargeted := by
  have h1 : changeAnnotations exTransformer ["app", "schemas", "v2022_01_01"]
      (.typeAnn exLatestType) = .ok (.typeAnn exV2022Type) := by
    simp only [changeAnnotations, changeNonContainer]
    rw [show changeVersionOfType exTransformer exLatestType ["app", "schemas", "v2022_01_01"] =
      .ok exV2022Type from by decide]
    rfl
  simp only [retargetCallable, annotationsDict, annotEntries, exCallable]
  simp only [List.filterMap_cons, List.filterMap_nil]
  simp only [changeAnnValues, changeAnnL, h1]
  simp only [generateSignatureParams, List.lookup, exCallableRetargeted]
  rfl

/-- Witness for the signature-preservation theorem: retargeting `get_user`
keeps its parameter names in order; only the annotations move to the 2022
schema namespace. -/
theorem signature_preservation_witness :
    retargetCallable exTransformer ["app", "schemas", "v2022_01_01"] exCallable =
        .ok exCallableRetargeted ∧
      exCallableRetargeted.params.map Param.name = exCallable.params.map Param.name :=
  ⟨retargetCallable_exCallable,
   (signature_preservation exTransformer ["app", "schemas", "v2022_01_01"] exCallable
      exCallableRetargeted retargetCallable_exCallable (by decide)
      (by intro q hq; rw [List.mem_singleton.mp hq]; decide)).2.2.1⟩

end Universi
